import Mathlib

/-!
Verification of the tip5xx numerics core (Goldilocks base field, cubic
extension field, and NTT engine) against its specification.

The definitions below are a shallow embedding of the C++ sources:
64-bit machine words are modelled as `Nat` with explicit `% 2^64`
wrap-around, 128-bit intermediates as `Nat` products, and fallible
operations return `Except Err`.
-/

namespace Tip5xx

/-- The Goldilocks prime `P = 2^64 - 2^32 + 1` (`BFieldElement::P`). -/
def P : Nat := 0xFFFFFFFF00000001

/-- `2^128 mod P`, the Montgomery conversion factor (`BFieldElement::R2`). -/
def R2 : Nat := 0xFFFFFFFE00000001

/-- The wrap-around modulus of a `uint64_t`. -/
def U64 : Nat := 2 ^ 64

/-- `BFieldElement::montyred`: Montgomery reduction of a 128-bit value.
Wrapping `uint64_t` arithmetic is written with explicit `% U64`; the
borrow/carry flags of the source become the `if` conditions.  The final
correction constant `1 + ~P` equals `U64 - P` (pinned by the source's
`static_assert` to `0xFFFFFFFF`). -/
def montyred (x : Nat) : Nat :=
  let xl := x % U64
  let xh := x / U64 % U64
  let shifted := xl * 2 ^ 32 % U64
  let a := (xl + shifted) % U64
  let b0 := (U64 + a - a / 2 ^ 32) % U64
  let b := if a < xl ∨ a < shifted then (U64 + b0 - 1) % U64 else b0
  let r := (U64 + xh - b) % U64
  (U64 + r - (U64 - P) * (if xh < b then 1 else 0)) % U64

/-- `BFieldElement::mod_reduce`: direct (non-Montgomery) reduction of a
128-bit value, limb-wise with underflow/overflow corrections by
`LOWER_MASK = 0xFFFFFFFF`. -/
def mod_reduce (x : Nat) : Nat :=
  let x_lo := x % U64
  let x_hi := x / U64 % U64
  let x_hi_lo := x_hi % 2 ^ 32
  let x_hi_hi := x_hi / 2 ^ 32
  let tmp0 := (U64 + x_lo - x_hi_hi) % U64
  let tmp1 := if x_lo < x_hi_hi then (U64 + tmp0 - 0xFFFFFFFF) % U64 else tmp0
  let tmp2 := (U64 + x_hi_lo * 2 ^ 32 % U64 - x_hi_lo) % U64
  let result := (tmp1 + tmp2) % U64
  if result < tmp1 ∨ result < tmp2 then (result + 0xFFFFFFFF) % U64 else result

/-- Fuel-based fast modular exponentiation on `Nat`, used only as a
proof-side bridge to evaluate powers with huge exponents (`b ^ e % n`).
Structural recursion on the fuel lets the kernel evaluate it under
`decide`; 128 units of fuel cover every exponent below `2^128`. -/
def powModF : Nat → Nat → Nat → Nat → Nat
  | 0, _, _, n => 1 % n
  | fuel + 1, b, e, n =>
    if e = 0 then 1 % n
    else
      let r := powModF fuel (b * b % n) (e / 2) n
      if e % 2 = 1 then r * b % n else r

def powM (b e n : Nat) : Nat := powModF 128 b e n

/-- Bit length of a `uint64_t`, as computed by the shift-until-zero loop in
`BFieldElement::mod_pow`. -/
def bitLength (n : Nat) : Nat :=
  if n = 0 then 0 else bitLength (n / 2) + 1
termination_by n
decreasing_by exact Nat.div_lt_self (Nat.pos_of_ne_zero (by assumption)) one_lt_two

/-- A base-field element: a single 64-bit Montgomery residue
(`BFieldElement::value_`). -/
structure BFieldElement where
  value_ : Nat
deriving DecidableEq, Repr

/-- Error kinds of the fallible operations (the tagged C++ exception
types, per the spec's taxonomy). -/
inductive Err where
  | inverseOfZero
  | noRootOfUnity
  | invalidLength
  | invalidUnlift
deriving DecidableEq, Repr

/-- `BFieldElement::new_element`: convert a `uint64_t` into Montgomery
form via `montyred(value * R2)`. -/
def new_element (v : Nat) : BFieldElement :=
  ⟨montyred (v % U64 * R2)⟩

/-- `BFieldElement::canonical_representation`: `montyred(value_)`. -/
def value (a : BFieldElement) : Nat :=
  montyred a.value_

/-- `BFieldElement::ZERO = new_element(0)`. -/
def BZERO : BFieldElement := new_element 0

/-- `BFieldElement::ONE = new_element(1)`. -/
def BONE : BFieldElement := new_element 1

/-- `BFieldElement::is_zero`: equality with `ZERO`, which the source
implements by comparing canonical representations. -/
def is_zero (a : BFieldElement) : Bool :=
  value a == value BZERO

/-- `BFieldElement::operator+`: `a + b` computed as `a - (P - b)` with a
borrow correction of `+P`. -/
def add (a b : BFieldElement) : BFieldElement :=
  let d := (P + U64 - b.value_) % U64
  let x1 := (U64 + a.value_ - d) % U64
  if a.value_ < d then ⟨(x1 + P) % U64⟩ else ⟨x1⟩

/-- `BFieldElement::operator-`: wrapping subtraction with correction by
`(1 + ~P) = U64 - P` on borrow. -/
def sub (a b : BFieldElement) : BFieldElement :=
  let x1 := (U64 + a.value_ - b.value_) % U64
  ⟨(U64 + x1 - (U64 - P) * (if a.value_ < b.value_ then 1 else 0)) % U64⟩

/-- `BFieldElement::operator-` (unary): `ZERO - a`. -/
def neg (a : BFieldElement) : BFieldElement :=
  sub BZERO a

/-- `BFieldElement::operator*`: `montyred` of the 128-bit product of the
Montgomery residues. -/
def mul (a b : BFieldElement) : BFieldElement :=
  ⟨montyred (a.value_ * b.value_)⟩

/-- `BFieldElement::exp`: square the accumulator `exponent` times. -/
def exp (base : BFieldElement) : Nat → BFieldElement
  | 0 => base
  | n + 1 => let r := exp base n; mul r r

/-- `BFieldElement::mod_pow`: left-to-right square-and-multiply over the
bits of the exponent (`exp & (1 << (bit_length - 1 - i))` is bit-testing). -/
def mod_pow (a : BFieldElement) (e : Nat) : BFieldElement :=
  let bl := bitLength e
  (List.range bl).foldl
    (fun acc i =>
      let acc2 := mul acc acc
      if e.testBit (bl - 1 - i) then mul acc2 a else acc2)
    BONE

/-- `BFieldElement::inverse_impl`: the fixed addition chain for
`a^(P-2)`; fails with `InverseOfZero` on the zero element. -/
def inverse_impl (a : BFieldElement) : Except Err BFieldElement :=
  if is_zero a then .error .inverseOfZero
  else
    let x := a
    let bin_2_ones := mul (mul a a) x
    let bin_3_ones := mul (mul bin_2_ones bin_2_ones) x
    let bin_6_ones := mul (exp bin_3_ones 3) bin_3_ones
    let bin_12_ones := mul (exp bin_6_ones 6) bin_6_ones
    let bin_24_ones := mul (exp bin_12_ones 12) bin_12_ones
    let bin_30_ones := mul (exp bin_24_ones 6) bin_6_ones
    let bin_31_ones := mul (mul bin_30_ones bin_30_ones) x
    let bin_31_ones_1_zero := mul bin_31_ones bin_31_ones
    let bin_32_ones := mul (mul bin_31_ones bin_31_ones) x
    .ok (mul (exp bin_31_ones_1_zero 32) bin_32_ones)

/-- `BFieldElement::PRIMITIVE_ROOTS`: the hard-coded lookup table mapping
an order to the canonical value of a root of unity. -/
def PRIMITIVE_ROOTS (n : Nat) : Option Nat :=
  if n = 0 then some 1
  else if n = 1 then some 1
  else if n = 2 then some 18446744069414584320
  else if n = 4 then some 281474976710656
  else if n = 8 then some 18446744069397807105
  else if n = 16 then some 17293822564807737345
  else if n = 32 then some 70368744161280
  else if n = 64 then some 549755813888
  else if n = 128 then some 17870292113338400769
  else if n = 256 then some 13797081185216407910
  else if n = 512 then some 1803076106186727246
  else if n = 1024 then some 11353340290879379826
  else if n = 2048 then some 455906449640507599
  else if n = 4096 then some 17492915097719143606
  else if n = 8192 then some 1532612707718625687
  else if n = 16384 then some 16207902636198568418
  else if n = 32768 then some 17776499369601055404
  else if n = 65536 then some 6115771955107415310
  else if n = 131072 then some 12380578893860276750
  else if n = 262144 then some 9306717745644682924
  else if n = 524288 then some 18146160046829613826
  else if n = 1048576 then some 3511170319078647661
  else if n = 2097152 then some 17654865857378133588
  else if n = 4194304 then some 5416168637041100469
  else if n = 8388608 then some 16905767614792059275
  else if n = 16777216 then some 9713644485405565297
  else if n = 33554432 then some 5456943929260765144
  else if n = 67108864 then some 17096174751763063430
  else if n = 134217728 then some 1213594585890690845
  else if n = 268435456 then some 6414415596519834757
  else if n = 536870912 then some 16116352524544190054
  else if n = 1073741824 then some 9123114210336311365
  else if n = 2147483648 then some 4614640910117430873
  else if n = 4294967296 then some 1753635133440165772
  else none

/-- `BFieldElement::primitive_root_of_unity_impl`: table lookup, throwing
the no-root error when the order is absent. -/
def primitive_root_of_unity_impl (n : Nat) : Except Err BFieldElement :=
  match PRIMITIVE_ROOTS n with
  | some v => .ok (new_element v)
  | none => .error .noRootOfUnity

/-! ### Cubic extension field -/

/-- An extension-field element: the coefficient triple
`coefficients_[0..2]` of `c0 + c1*x + c2*x^2` in `B[x]/(x^3 - x + 1)`. -/
structure XFieldElement where
  c0 : BFieldElement
  c1 : BFieldElement
  c2 : BFieldElement
deriving DecidableEq, Repr

/-- `XFieldElement::ZERO = (0, 0, 0)`. -/
def XZERO : XFieldElement := ⟨BZERO, BZERO, BZERO⟩

/-- `XFieldElement::ONE = (1, 0, 0)`. -/
def XONE : XFieldElement := ⟨BONE, BZERO, BZERO⟩

/-- `XFieldElement::new_const(b)`: the constant element `(b, 0, 0)`, from
the x_field_element class header (the third document of
`src/lib/include/tip5xx/tip5xx.hpp`). -/
def new_const (b : BFieldElement) : XFieldElement := ⟨b, BZERO, BZERO⟩

/-- `XFieldElement::is_zero`: `*this == ZERO`, from the x_field_element
class header (the third document of `src/lib/include/tip5xx/tip5xx.hpp`);
`operator==` there compares the coefficient arrays elementwise with
`BFieldElement::operator==`, which compares canonical representations, and
`ZERO = (0, 0, 0)`. -/
def is_zero_x (t : XFieldElement) : Bool :=
  value t.c0 == value BZERO && value t.c1 == value BZERO && value t.c2 == value BZERO

/-- `XFieldElement::is_one`: `*this == ONE`, from the x_field_element
class header (the third document of `src/lib/include/tip5xx/tip5xx.hpp`);
`operator==` there compares the coefficient arrays elementwise with
`BFieldElement::operator==`, which compares canonical representations, and
`ONE = (1, 0, 0)`. -/
def is_one_x (t : XFieldElement) : Bool :=
  value t.c0 == value BONE && value t.c1 == value BZERO && value t.c2 == value BZERO

/-- `XFieldElement::operator+`: componentwise addition. -/
def xadd (lhs rhs : XFieldElement) : XFieldElement :=
  ⟨add lhs.c0 rhs.c0, add lhs.c1 rhs.c1, add lhs.c2 rhs.c2⟩

/-- `XFieldElement::operator-`: componentwise subtraction. -/
def xsub (lhs rhs : XFieldElement) : XFieldElement :=
  ⟨sub lhs.c0 rhs.c0, sub lhs.c1 rhs.c1, sub lhs.c2 rhs.c2⟩

/-- `XFieldElement::operator*`: polynomial product reduced by
`x^3 = x - 1`, with the source's local names `a = c2, b = c1, c = c0`
and `d = rhs.c2, e = rhs.c1, f = rhs.c0`. -/
def xmul (lhs rhs : XFieldElement) : XFieldElement :=
  let a := lhs.c2
  let b := lhs.c1
  let c := lhs.c0
  let d := rhs.c2
  let e := rhs.c1
  let f := rhs.c0
  let r0 := sub (sub (mul c f) (mul a e)) (mul b d)
  let r1 := add (add (sub (add (mul b f) (mul c e)) (mul a d)) (mul a e)) (mul b d)
  let r2 := add (add (add (mul a f) (mul b e)) (mul c d)) (mul a d)
  ⟨r0, r1, r2⟩

/-- `XFieldElement::operator*` by a base-field scalar: componentwise. -/
def xmulB (lhs : XFieldElement) (rhs : BFieldElement) : XFieldElement :=
  ⟨mul lhs.c0 rhs, mul lhs.c1 rhs, mul lhs.c2 rhs⟩

/-- `XFieldElement::inverse_impl`: the norm-based inversion with auxiliary
triple `(a^2 - bc, b^2 - ac, c^2)` scaled by the base-field inverse of the
sum of their squares; fails with `InverseOfZero` on the zero element. -/
def inverse_impl_x (t : XFieldElement) : Except Err XFieldElement :=
  if is_zero_x t then .error .inverseOfZero
  else
    let a := t.c0
    let b := t.c1
    let c := t.c2
    let a_sqr := mul a a
    let b_sqr := mul b b
    let c_sqr := mul c c
    let bc := mul b c
    let ac := mul a c
    let denom_0 := sub a_sqr bc
    let denom_1 := sub b_sqr ac
    let denom_2 := c_sqr
    let norm := add (add (mul denom_0 denom_0) (mul denom_1 denom_1)) (mul denom_2 denom_2)
    match inverse_impl norm with
    | .error e => .error e
    | .ok inv_denom => .ok ⟨mul denom_0 inv_denom, mul denom_1 inv_denom, mul denom_2 inv_denom⟩

/-- The body of `XFieldElement::cyclic_group_elements_impl`'s `while` loop,
with an explicit fuel bound on the number of iterations: `none` means the
loop has not finished within `fuel` iterations.  The loop pushes the
running power and multiplies by `t` while the running power is not `ONE`
and the optional cap `mx` (0 = no cap) is not reached. -/
def cycAux (t : XFieldElement) (mx : Nat) : Nat → XFieldElement → List XFieldElement → Option (List XFieldElement)
  | 0, _, _ => none
  | fuel + 1, current, result =>
    if is_one_x current = false ∧ (mx = 0 ∨ result.length < mx)
    then cycAux t mx fuel (xmul current t) (result ++ [current])
    else some result

/-- `XFieldElement::cyclic_group_elements_impl`: start from `result = [ONE]`
and `current = t`, then run the loop (with fuel). -/
def cyclic_group_elements_impl (t : XFieldElement) (mx fuel : Nat) : Option (List XFieldElement) :=
  cycAux t mx fuel t [XONE]

/-! ### NTT engine

The NTT is generic over the element type (`BFieldElement` or
`XFieldElement`); the C++ template parameter becomes an explicit record of
the operations used: `+`, `-`, and `*=` by a base-field twiddle.  `dflt`
is only a fallback for the (always in-bounds) vector indexing. -/

structure FFOps (α : Type) where
  fadd : α → α → α
  fsub : α → α → α
  fmulB : α → BFieldElement → α
  dflt : α

/-- NTT operations instantiated at `BFieldElement` (here `v *= w` is the
base-field product). -/
def bOps : FFOps BFieldElement := ⟨add, sub, mul, ⟨0⟩⟩

/-- NTT operations instantiated at `XFieldElement` (here `v *= w` is the
scalar product by a base-field twiddle). -/
def xOps : FFOps XFieldElement := ⟨xadd, xsub, xmulB, XZERO⟩

/-- `ensure_power_of_two`: throws (`InvalidLength` kind) iff `n` is zero or
`n & (n - 1)` is non-zero. -/
def ensure_power_of_two (n : Nat) : Except Err Unit :=
  if n = 0 ∨ n &&& (n - 1) ≠ 0 then .error .invalidLength else .ok ()

/-- `bitreverse(n, l)` (the `uint32_t` version): shift the low `l` bits of
`n` into `r` in reverse order; `(r << 1) | (n & 1)` on a `uint32_t` is
`(r * 2) % 2^32 + n % 2` since `r * 2 % 2^32` is even.  The loop is
written as recursion on the counter `l`. -/
def brGo : Nat → Nat → Nat → Nat
  | r, _, 0 => r
  | r, n, l + 1 => brGo (r * 2 % 2 ^ 32 + n % 2) (n / 2) l

def bitreverse (n l : Nat) : Nat := brGo 0 n l

/-- `bitreverse_usize(n, l)`: same loop on `size_t` (no truncation). -/
def brGoU : Nat → Nat → Nat → Nat
  | r, _, 0 => r
  | r, n, l + 1 => brGoU (r * 2 + n % 2) (n / 2) l

def bitreverse_usize (n l : Nat) : Nat := brGoU 0 n l

/-- The inner `j` loop of a butterfly stage in `ntt_unchecked`: state is
the vector together with the running twiddle `w` (starting at `ONE` and
multiplied by `w_m` each step). -/
def jLoop {α : Type} (ops : FFOps α) (w_m : BFieldElement) (k m : Nat) (x : List α) : List α × BFieldElement :=
  (List.range m).foldl
    (fun s j =>
      let u := s.1.getD (k + j) ops.dflt
      let v := s.1.getD (k + j + m) ops.dflt
      let v2 := ops.fmulB v s.2
      (((s.1.set (k + j) (ops.fadd u v2)).set (k + j + m) (ops.fsub u v2)), mul s.2 w_m))
    (x, BONE)

/-- The `while (k < slice_len)` loop of a butterfly stage, `k += 2*m` per
iteration.  Written with a fuel bound; every call site passes `m ≥ 1` and
enough fuel, so the fuel never runs out there. -/
def kLoop {α : Type} (ops : FFOps α) (w_m : BFieldElement) (m slice_len : Nat) : Nat → Nat → List α → List α
  | 0, _, x => x
  | fuel + 1, k, x =>
    if k < slice_len then kLoop ops w_m m slice_len fuel (k + 2 * m) (jLoop ops w_m k m x).1
    else x

/-- `ntt_unchecked`: note the source truncates the length with
`static_cast<uint32_t>(x.size())`, hence `% 2^32`.  First the bit-reversal
permutation, then `log2_slice_len` butterfly stages with `m = 2^s` and
`w_m = omega.mod_pow_u32(slice_len / (2*m))`. -/
def ntt_unchecked {α : Type} (ops : FFOps α) (x : List α) (omega : BFieldElement) (log2_slice_len : Nat) : List α :=
  let slice_len := x.length % 2 ^ 32
  let x1 := (List.range slice_len).foldl
    (fun y k =>
      let rk := bitreverse k log2_slice_len
      if k < rk then
        let a := y.getD k ops.dflt
        let b := y.getD rk ops.dflt
        (y.set rk a).set k b
      else y)
    x
  (List.range log2_slice_len).foldl
    (fun y s =>
      let m := 2 ^ s
      let w_m := mod_pow omega (slice_len / (2 * m))
      kLoop ops w_m m slice_len (slice_len + 1) 0 y)
    x1

/-- `ntt`: the checked forward transform (empty input returns; length
check; table root; `log2` of a power of two is exact). -/
def ntt {α : Type} (ops : FFOps α) (x : List α) : Except Err (List α) :=
  let slice_len := x.length
  if slice_len = 0 then .ok x
  else
    match ensure_power_of_two slice_len with
    | .error e => .error e
    | .ok _ =>
      match primitive_root_of_unity_impl slice_len with
      | .error e => .error e
      | .ok omega => .ok (ntt_unchecked ops x omega slice_len.log2)

/-- `intt`: the checked inverse transform: forward butterflies with
`omega.inverse()`, then scaling by `new_element(slice_len).inverse()`. -/
def intt {α : Type} (ops : FFOps α) (x : List α) : Except Err (List α) :=
  let slice_len := x.length
  if slice_len = 0 then .ok x
  else
    match ensure_power_of_two slice_len with
    | .error e => .error e
    | .ok _ =>
      match primitive_root_of_unity_impl slice_len with
      | .error e => .error e
      | .ok omega =>
        match inverse_impl omega with
        | .error e => .error e
        | .ok oinv =>
          let y := ntt_unchecked ops x oinv slice_len.log2
          match inverse_impl (new_element (slice_len % U64)) with
          | .error e => .error e
          | .ok n_inv => .ok (y.map fun el => ops.fmulB el n_inv)

/-- The precomputed table `powers_of_omega_bitreversed` of `ntt_noswap`:
a vector of `n` zeros whose first `n/2` powers of `omega` are written at
bit-reversed positions (width `logn - 1`). -/
def powersTable (omega : BFieldElement) (n logn : Nat) : List BFieldElement :=
  ((List.range (n / 2)).foldl
    (fun s i => (s.1.set (bitreverse_usize i (logn - 1)) s.2, mul s.2 omega))
    (List.replicate n BZERO, BONE)).1

/-- The `while (m < n)` loop of `ntt_noswap`, with fuel: each iteration
halves `t`, runs blocks `i < m` of butterflies at offset `i * t * 2` with
twiddle `pw[i]`, and doubles `m`. -/
def noswapStage {α : Type} (ops : FFOps α) (pw : List BFieldElement) (n : Nat) : Nat → Nat → Nat → List α → List α
  | 0, _, _, x => x
  | fuel + 1, m, t, x =>
    if m < n then
      let t2 := t / 2
      let x2 := (List.range m).foldl
        (fun y i =>
          let s := i * t2 * 2
          (List.range t2).foldl
            (fun z jo =>
              let j := s + jo
              let u := z.getD j ops.dflt
              let v := z.getD (j + t2) ops.dflt
              let v2 := ops.fmulB v (pw.getD i BZERO)
              (z.set j (ops.fadd u v2)).set (j + t2) (ops.fsub u v2))
            y)
        x
      noswapStage ops pw n fuel (m * 2) t2 x2
    else x

/-- `ntt_noswap`: checked no-swap forward transform (no `uint32_t`
truncation here; the length stays `size_t`). -/
def ntt_noswap {α : Type} (ops : FFOps α) (x : List α) : Except Err (List α) :=
  let n := x.length
  if n = 0 then .ok x
  else
    match ensure_power_of_two n with
    | .error e => .error e
    | .ok _ =>
      match primitive_root_of_unity_impl n with
      | .error e => .error e
      | .ok omega =>
        let logn := n.log2
        let pw := powersTable omega n logn
        .ok (noswapStage ops pw n (n + 1) 1 n x)

/-- The `while ((1 << logn) < n) logn++` loop of `bitreverse_order`,
with fuel (`fuel = n` always suffices). -/
def broLogn (n : Nat) : Nat → Nat → Nat
  | 0, l => l
  | fuel + 1, l => if 2 ^ l < n then broLogn n fuel (l + 1) else l

/-- `bitreverse_order`: swap each element at `k` with the one at the
bit-reversed index `rk` when `k < rk`. -/
def bitreverse_order {α : Type} (ops : FFOps α) (x : List α) : List α :=
  if x.length = 0 then x
  else
    let n := x.length
    let logn := broLogn n n 0
    (List.range n).foldl
      (fun y k =>
        let rk := bitreverse_usize k logn
        if k < rk then
          let a := y.getD k ops.dflt
          let b := y.getD rk ops.dflt
          (y.set rk a).set k b
        else y)
      x

/-- Proof-side abbreviation: the element obtained from `u` by `d`
successive doublings `u + u`. -/
def dblPow : Nat → BFieldElement → BFieldElement
  | 0, u => u
  | d + 1, u => dblPow d (add u u)

end Tip5xx

namespace Tip5xx

set_option maxHeartbeats 1600000 in
theorem montyred_aux (xl xh : Nat) (hl : xl < 2 ^ 64) (hh : xh < 2 ^ 64) :
    montyred (xh * 2 ^ 64 + xl) * 2 ^ 64 % P = (xh * 2 ^ 64 + xl) % P ∧
    montyred (xh * 2 ^ 64 + xl) < 2 ^ 64 ∧
    (xh < P → montyred (xh * 2 ^ 64 + xl) < P) := by
  have e1 : (xh * 2 ^ 64 + xl) % 2 ^ 64 = xl := by omega
  have e2 : (xh * 2 ^ 64 + xl) / 2 ^ 64 = xh := by omega
  have e3 : xh % 2 ^ 64 = xh := Nat.mod_eq_of_lt hh
  simp only [montyred, U64, P, e1, e2, e3]
  set c := xl / 2 ^ 32 with hc_def
  set d := xl % 2 ^ 32 with hd_def
  have hc : c < 2 ^ 32 := by omega
  have hd : d < 2 ^ 32 := by omega
  have hxl : xl = c * 2 ^ 32 + d := by omega
  obtain ⟨ef, u, hefu, hu, hef⟩ :
      ∃ ef u, c + d = ef * 2 ^ 32 + u ∧ u < 2 ^ 32 ∧ ef ≤ 1 :=
    ⟨(c + d) / 2 ^ 32, (c + d) % 2 ^ 32, by omega, by omega, by omega⟩
  set S := xl * 2 ^ 32 % 2 ^ 64 with hS_def
  have hS : S = d * 2 ^ 32 := by rw [hS_def, hxl]; omega
  set A := (xl + S) % 2 ^ 64 with hA_def
  have hA : A = u * 2 ^ 32 + d := by rw [hA_def, hS, hxl]; omega
  have hAdiv : A / 2 ^ 32 = u := by rw [hA]; omega
  set B0 := (2 ^ 64 + A - A / 2 ^ 32) % 2 ^ 64 with hB0_def
  have hB0 : B0 = u * 2 ^ 32 + d - u := by rw [hB0_def, hAdiv, hA]; omega
  have hcond : (A < xl ∨ A < S) ↔ ef = 1 := by rw [hA, hS, hxl]; omega
  simp only [hcond]
  by_cases he : ef = 1
  · simp only [if_pos he]
    subst he
    set B := (2 ^ 64 + B0 - 1) % 2 ^ 64 with hB_def
    have hB : B = u * 2 ^ 32 + d - u - 1 := by rw [hB_def, hB0]; omega
    have hkey : B * 2 ^ 64 + xl = (u * 2 ^ 32 + d) * 18446744069414584321 := by
      rw [hB, hxl]; omega
    set R := (2 ^ 64 + xh - B) % 2 ^ 64 with hR_def
    by_cases hcf : xh < B
    · simp only [if_pos hcf]
      have hR : R = 2 ^ 64 + xh - B := by rw [hR_def, hB]; omega
      refine ⟨?_, by omega, fun h => by omega⟩
      have hres : (2 ^ 64 + R - (2 ^ 64 - 18446744069414584321) * 1) % 2 ^ 64
          = xh + 18446744069414584321 - B := by omega
      rw [hres]
      have hfin : (xh + 18446744069414584321 - B) * 2 ^ 64
          = (xh * 2 ^ 64 + xl) + (2 ^ 64 - (u * 2 ^ 32 + d)) * 18446744069414584321 := by
        omega
      omega
    · simp only [if_neg hcf]
      have hR : R = xh - B := by rw [hR_def]; omega
      refine ⟨?_, by omega, fun h => by omega⟩
      have hres : (2 ^ 64 + R - (2 ^ 64 - 18446744069414584321) * 0) % 2 ^ 64
          = xh - B := by omega
      rw [hres]
      have hfin : (xh - B) * 2 ^ 64 + (u * 2 ^ 32 + d) * 18446744069414584321
          = xh * 2 ^ 64 + xl := by
        omega
      omega
  · simp only [if_neg he]
    have he0 : ef = 0 := by omega
    subst he0
    have hkey : B0 * 2 ^ 64 + xl = (u * 2 ^ 32 + d) * 18446744069414584321 := by
      rw [hB0, hxl]; omega
    set R := (2 ^ 64 + xh - B0) % 2 ^ 64 with hR_def
    by_cases hcf : xh < B0
    · simp only [if_pos hcf]
      have hR : R = 2 ^ 64 + xh - B0 := by rw [hR_def, hB0]; omega
      refine ⟨?_, by omega, fun h => by omega⟩
      have hres : (2 ^ 64 + R - (2 ^ 64 - 18446744069414584321) * 1) % 2 ^ 64
          = xh + 18446744069414584321 - B0 := by omega
      rw [hres]
      have hfin : (xh + 18446744069414584321 - B0) * 2 ^ 64
          = (xh * 2 ^ 64 + xl) + (2 ^ 64 - (u * 2 ^ 32 + d)) * 18446744069414584321 := by
        omega
      omega
    · simp only [if_neg hcf]
      have hR : R = xh - B0 := by rw [hR_def]; omega
      refine ⟨?_, by omega, fun h => by omega⟩
      have hres : (2 ^ 64 + R - (2 ^ 64 - 18446744069414584321) * 0) % 2 ^ 64
          = xh - B0 := by omega
      rw [hres]
      have hfin : (xh - B0) * 2 ^ 64 + (u * 2 ^ 32 + d) * 18446744069414584321
          = xh * 2 ^ 64 + xl := by
        omega
      omega

end Tip5xx

namespace Tip5xx

/-- `montyred` congruence: the reduction of a 128-bit value is `x * 2^-64`
modulo `P` (stated multiplicatively). -/
theorem montyred_spec (x : Nat) (hx : x < 2 ^ 128) :
    montyred x * 2 ^ 64 % P = x % P ∧ montyred x < 2 ^ 64 ∧
    (x < P * 2 ^ 64 → montyred x < P) := by
  have h := montyred_aux (x % 2 ^ 64) (x / 2 ^ 64) (by omega) (by omega)
  have hx' : x / 2 ^ 64 * 2 ^ 64 + x % 2 ^ 64 = x := by omega
  rw [hx'] at h
  exact ⟨h.1, h.2.1, fun hlt => h.2.2 (by simp only [P] at hlt ⊢; omega)⟩

theorem mod_reduce_aux (lo hi : Nat) (h1 : lo < 2 ^ 64) (h2 : hi < 2 ^ 64) :
    mod_reduce (hi * 2 ^ 64 + lo) % P = (hi * 2 ^ 64 + lo) % P ∧
    mod_reduce (hi * 2 ^ 64 + lo) < 2 ^ 64 := by
  have e1 : (hi * 2 ^ 64 + lo) % 2 ^ 64 = lo := by omega
  have e2 : (hi * 2 ^ 64 + lo) / 2 ^ 64 = hi := by omega
  have e3 : hi % 2 ^ 64 = hi := Nat.mod_eq_of_lt h2
  simp only [mod_reduce, U64, P, e1, e2, e3]
  set hl := hi % 2 ^ 32 with hhl_def
  set hh := hi / 2 ^ 32 with hhh_def
  have hhl : hl < 2 ^ 32 := by omega
  have hhh : hh < 2 ^ 32 := by omega
  have hhi : hi = hh * 2 ^ 32 + hl := by omega
  have ht2 : (2 ^ 64 + hl * 2 ^ 32 % 2 ^ 64 - hl) % 2 ^ 64 = hl * 2 ^ 32 - hl := by
    omega
  rw [ht2]
  by_cases f1 : lo < hh
  · simp only [if_pos f1]
    have ht1 : (2 ^ 64 + (2 ^ 64 + lo - hh) % 2 ^ 64 - 0xFFFFFFFF) % 2 ^ 64
        = lo + 18446744069414584321 - hh := by omega
    rw [ht1]
    set t1 := lo + 18446744069414584321 - hh with ht1_def
    set t2 := hl * 2 ^ 32 - hl with ht2_def
    set res := (t1 + t2) % 2 ^ 64 with hres_def
    by_cases f2 : res < t1 ∨ res < t2
    · simp only [if_pos f2]
      have hov : t1 + t2 = res + 2 ^ 64 := by omega
      have hfin : (res + 0xFFFFFFFF) % 2 ^ 64 + (hh * (2 ^ 32 + 1) + hl + 1) * 18446744069414584321
          = (hi * 2 ^ 64 + lo) + 18446744069414584321 := by
        rw [hhi]; omega
      omega
    · simp only [if_neg f2]
      have hov : t1 + t2 = res := by omega
      have hfin : res + (hh * (2 ^ 32 + 1) + hl) * 18446744069414584321
          = (hi * 2 ^ 64 + lo) + 18446744069414584321 := by
        rw [hhi]; omega
      omega
  · simp only [if_neg f1]
    have ht0 : (2 ^ 64 + lo - hh) % 2 ^ 64 = lo - hh := by omega
    rw [ht0]
    set t1 := lo - hh with ht1_def
    set t2 := hl * 2 ^ 32 - hl with ht2_def
    set res := (t1 + t2) % 2 ^ 64 with hres_def
    by_cases f2 : res < t1 ∨ res < t2
    · simp only [if_pos f2]
      have hov : t1 + t2 = res + 2 ^ 64 := by omega
      have hfin : (res + 0xFFFFFFFF) % 2 ^ 64 + (hh * (2 ^ 32 + 1) + hl + 1) * 18446744069414584321
          = hi * 2 ^ 64 + lo := by
        rw [hhi]; omega
      omega
    · simp only [if_neg f2]
      have hov : t1 + t2 = res := by omega
      have hfin : res + (hh * (2 ^ 32 + 1) + hl) * 18446744069414584321
          = hi * 2 ^ 64 + lo := by
        rw [hhi]; omega
      omega

end Tip5xx

namespace Tip5xx


theorem powModF_correct (fuel : Nat) :
    ∀ b e n, 0 < n → e < 2 ^ fuel → powModF fuel b e n = b ^ e % n := by
  induction fuel with
  | zero =>
    intro b e n hn he
    interval_cases e
    simp [powModF]
  | succ fuel ih =>
    intro b e n hn he
    rw [powModF]
    by_cases he0 : e = 0
    · subst he0; simp
    · simp only [if_neg he0]
      have hlt : e / 2 < 2 ^ fuel := by
        have : 2 ^ (fuel + 1) = 2 ^ fuel * 2 := by ring
        omega
      rw [ih (b * b % n) (e / 2) n hn hlt, ← Nat.pow_mod]
      have hsq : (b * b) ^ (e / 2) = b ^ (2 * (e / 2)) := by
        rw [pow_mul, pow_two]
      by_cases hpar : e % 2 = 1
      · simp only [if_pos hpar]
        rw [Nat.mod_mul_mod, hsq, ← pow_succ]
        congr 2
        omega
      · simp only [if_neg hpar]
        rw [hsq]
        congr 2
        omega

theorem powM_correct (b e n : Nat) (hn : 0 < n) (he : e < 2 ^ 128) :
    powM b e n = b ^ e % n :=
  powModF_correct 128 b e n hn he

theorem P_pos : 0 < P := by norm_num [P]

set_option maxRecDepth 4000 in
theorem P_prime : Nat.Prime P := by
  haveI : NeZero P := ⟨by norm_num [P]⟩
  haveI : Fact (1 < P) := ⟨by norm_num [P]⟩
  have hcast : ∀ e : Nat, e < 2 ^ 128 → (7 : ZMod P) ^ e = ((powM 7 e P : Nat) : ZMod P) := by
    intro e he
    rw [powM_correct 7 e P P_pos he, ZMod.natCast_mod]
    push_cast
    rfl
  have hP1 : P - 1 = 2 ^ 32 * 3 * 5 * 17 * 257 * 65537 := by norm_num [P]
  apply lucas_primality P 7
  · rw [hcast (P - 1) (by norm_num [P])]
    have : powM 7 (P - 1) P = 1 := by decide
    rw [this, Nat.cast_one]
  · intro q hq hdvd
    have hq2 : q = 2 ∨ q = 3 ∨ q = 5 ∨ q = 17 ∨ q = 257 ∨ q = 65537 := by
      rw [hP1] at hdvd
      rcases (Nat.Prime.dvd_mul hq).mp hdvd with h | h
      rcases (Nat.Prime.dvd_mul hq).mp h with h | h
      rcases (Nat.Prime.dvd_mul hq).mp h with h | h
      rcases (Nat.Prime.dvd_mul hq).mp h with h | h
      rcases (Nat.Prime.dvd_mul hq).mp h with h | h
      · exact Or.inl ((Nat.prime_dvd_prime_iff_eq hq Nat.prime_two).mp (hq.dvd_of_dvd_pow h))
      · exact Or.inr (Or.inl ((Nat.prime_dvd_prime_iff_eq hq (by norm_num)).mp h))
      · exact Or.inr (Or.inr (Or.inl ((Nat.prime_dvd_prime_iff_eq hq (by norm_num)).mp h)))
      · exact Or.inr (Or.inr (Or.inr (Or.inl ((Nat.prime_dvd_prime_iff_eq hq (by norm_num)).mp h))))
      · exact Or.inr (Or.inr (Or.inr (Or.inr (Or.inl ((Nat.prime_dvd_prime_iff_eq hq (by norm_num)).mp h)))))
      · exact Or.inr (Or.inr (Or.inr (Or.inr (Or.inr ((Nat.prime_dvd_prime_iff_eq hq (by norm_num)).mp h)))))
    have hne : ∀ v : Nat, v < P → v ≠ 1 → ((v : Nat) : ZMod P) ≠ 1 := by
      intro v hv hv1 hc
      have := ZMod.val_cast_of_lt hv
      rw [hc] at this
      rw [ZMod.val_one] at this
      exact hv1 this.symm
    rcases hq2 with rfl | rfl | rfl | rfl | rfl | rfl
    · rw [hcast _ (by norm_num [P])]
      exact hne _ (by decide) (by decide)
    · rw [hcast _ (by norm_num [P])]
      exact hne _ (by decide) (by decide)
    · rw [hcast _ (by norm_num [P])]
      exact hne _ (by decide) (by decide)
    · rw [hcast _ (by norm_num [P])]
      exact hne _ (by decide) (by decide)
    · rw [hcast _ (by norm_num [P])]
      exact hne _ (by decide) (by decide)
    · rw [hcast _ (by norm_num [P])]
      exact hne _ (by decide) (by decide)



instance : Fact (Nat.Prime P) := ⟨P_prime⟩

instance : NeZero P := ⟨by norm_num [P]⟩

/-! ### Range preservation of the base-field operations -/

theorem add_lt {a b : BFieldElement} (ha : a.value_ < P) (hb : b.value_ < P) :
    (add a b).value_ < P := by
  simp only [add, U64, P] at *
  split_ifs <;> simp <;> omega

theorem sub_lt {a b : BFieldElement} (ha : a.value_ < P) (hb : b.value_ < P) :
    (sub a b).value_ < P := by
  simp only [sub, U64, P] at *
  split_ifs <;> simp <;> omega

theorem mul_lt {a b : BFieldElement} (ha : a.value_ < P) (hb : b.value_ < P) :
    (mul a b).value_ < P := by
  simp only [mul]
  have hab : a.value_ * b.value_ < P * 2 ^ 64 := by
    calc a.value_ * b.value_ ≤ (P - 1) * (P - 1) := Nat.mul_le_mul (by omega) (by omega)
    _ < P * 2 ^ 64 := by norm_num [P]
  exact (montyred_spec (a.value_ * b.value_) (by norm_num [P] at hab ⊢; omega)).2.2 hab

theorem new_element_lt (v : Nat) : (new_element v).value_ < P := by
  simp only [new_element]
  have h1 : v % U64 ≤ 2 ^ 64 - 1 := by
    have := Nat.mod_lt v (show 0 < U64 by norm_num [U64])
    simp only [U64] at this ⊢
    omega
  have hb : v % U64 * R2 < P * 2 ^ 64 := by
    calc v % U64 * R2 ≤ (2 ^ 64 - 1) * R2 := Nat.mul_le_mul_right _ h1
    _ < P * 2 ^ 64 := by norm_num [R2, P]
  exact (montyred_spec (v % U64 * R2) (by norm_num [P] at hb ⊢; omega)).2.2 hb

theorem value_lt (a : BFieldElement) (h : a.value_ < 2 ^ 64) : value a < P := by
  simp only [value]
  exact (montyred_spec a.value_ (by nlinarith)).2.2 (by nlinarith [P_pos])

/-! ### The canonical-value map into `ZMod P` -/

/-- Canonical value of an element as a residue modulo `P` (proof-side). -/
def vmap (a : BFieldElement) : ZMod P := (value a : ZMod P)

theorem u64_unit : (2 ^ 64 : ZMod P) ≠ 0 := by
  have : ((2 ^ 64 % P : Nat) : ZMod P) = ((2 ^ 64 : Nat) : ZMod P) := ZMod.natCast_mod _ _
  intro hc
  rw [show ((2:ZMod P))^64 = ((2^64 : Nat) : ZMod P) by push_cast; ring, ← this] at hc
  have h2 : (2 ^ 64 % P : Nat) = 4294967295 := by norm_num [P]
  rw [h2] at hc
  have := ZMod.val_cast_of_lt (a := 4294967295) (show 4294967295 < P by norm_num [P])
  rw [hc] at this
  simp [ZMod.val_zero] at this

set_option maxRecDepth 4000 in
theorem value_congr (a : BFieldElement) (h : a.value_ < 2 ^ 64) :
    vmap a * 2 ^ 64 = (a.value_ : ZMod P) := by
  have hs := (montyred_spec a.value_ (by nlinarith)).1
  have : ((montyred a.value_ * 2 ^ 64 % P : Nat) : ZMod P) = ((a.value_ % P : Nat) : ZMod P) := by
    rw [hs]
  rw [ZMod.natCast_mod, ZMod.natCast_mod] at this
  push_cast at this
  simpa [vmap, value] using this

set_option maxRecDepth 4000 in
theorem value_mul (a b : BFieldElement) (ha : a.value_ < 2 ^ 64) (hb : b.value_ < 2 ^ 64) :
    vmap (mul a b) = vmap a * vmap b := by
  have hm : (mul a b).value_ < 2 ^ 64 := by
    simp only [mul]
    exact (montyred_spec (a.value_ * b.value_) (by nlinarith)).2.1
  have h1 := value_congr (mul a b) hm
  have h2 := value_congr a ha
  have h3 := value_congr b hb
  -- (mul a b).value_ * 2^64 ≡ a.value_ * b.value_  (montyred congruence on the product)
  have hp := (montyred_spec (a.value_ * b.value_) (by nlinarith)).1
  have hpz : ((mul a b).value_ : ZMod P) * 2 ^ 64 = (a.value_ : ZMod P) * (b.value_ : ZMod P) := by
    have : ((montyred (a.value_ * b.value_) * 2 ^ 64 % P : Nat) : ZMod P)
        = ((a.value_ * b.value_ % P : Nat) : ZMod P) := by rw [hp]
    rw [ZMod.natCast_mod, ZMod.natCast_mod] at this
    push_cast at this
    simpa [mul] using this
  have hu := u64_unit
  have hc : vmap (mul a b) * 2 ^ 64 * 2 ^ 64 = vmap a * vmap b * 2 ^ 64 * 2 ^ 64 := by
    rw [h1, hpz, ← h2, ← h3]
    ring
  exact mul_right_cancel₀ hu (mul_right_cancel₀ hu hc)

theorem value_eq_of_lt {x y : Nat} (hx : x < P) (hy : y < P)
    (h : ((x : Nat) : ZMod P) = ((y : Nat) : ZMod P)) : x = y := by
  have h1 := ZMod.val_cast_of_lt hx
  have h2 := ZMod.val_cast_of_lt hy
  rw [h] at h1
  omega

/-- Nat-level multiplicativity of canonical values. -/
theorem value_mul_nat (a b : BFieldElement) (ha : a.value_ < 2 ^ 64) (hb : b.value_ < 2 ^ 64) :
    value (mul a b) = value a * value b % P := by
  have hm : (mul a b).value_ < 2 ^ 64 := by
    simp only [mul]
    exact (montyred_spec (a.value_ * b.value_) (by nlinarith)).2.1
  refine value_eq_of_lt (value_lt _ hm) (Nat.mod_lt _ P_pos) ?_
  rw [ZMod.natCast_mod]
  push_cast
  exact value_mul a b ha hb


end Tip5xx

deriving instance DecidableEq for Except

namespace Tip5xx


theorem mul_val64 {a b : BFieldElement} (ha : a.value_ < 2 ^ 64) (hb : b.value_ < 2 ^ 64) :
    (mul a b).value_ < 2 ^ 64 := by
  simp only [mul]
  exact (montyred_spec (a.value_ * b.value_) (by nlinarith)).2.1

theorem exp_val64 {a : BFieldElement} (ha : a.value_ < 2 ^ 64) (n : Nat) :
    (exp a n).value_ < 2 ^ 64 := by
  induction n with
  | zero => exact ha
  | succ n ih => exact mul_val64 ih ih

theorem vexp {a : BFieldElement} (ha : a.value_ < 2 ^ 64) (n : Nat) :
    vmap (exp a n) = vmap a ^ 2 ^ n := by
  induction n with
  | zero => simp [exp]
  | succ n ih =>
    show vmap (mul (exp a n) (exp a n)) = _
    rw [value_mul _ _ (exp_val64 ha n) (exp_val64 ha n), ih, ← pow_add, pow_succ]
    ring_nf

theorem value_bzero : value BZERO = 0 := by decide

theorem vmap_ne_zero {a : BFieldElement} (h64 : a.value_ < 2 ^ 64) (hv : value a ≠ 0) :
    vmap a ≠ 0 := by
  intro hc
  have hval := ZMod.val_cast_of_lt (value_lt a h64)
  simp only [vmap] at hc
  rw [hc, ZMod.val_zero] at hval
  exact hv hval.symm

/-- Claim C6: the fixed addition chain of `inverse_impl` computes `a^(P-2)`, hence a
multiplicative inverse, for every non-zero element; inversion of zero
fails with the `InverseOfZero` kind. -/
theorem inverse_chain_spec :
    (∀ a : BFieldElement, a.value_ < P → value a ≠ 0 →
      ∃ r, inverse_impl a = .ok r ∧ value r = value a ^ (P - 2) % P ∧ value (mul a r) = 1)
    ∧ inverse_impl BZERO = .error .inverseOfZero := by
  constructor
  · intro a hP hv
    have h64 : a.value_ < 2 ^ 64 := lt_of_lt_of_le hP (by norm_num [P])
    have hz : is_zero a = false := by
      simp only [is_zero, value_bzero, beq_eq_false_iff_ne, ne_eq]
      exact hv
    rw [inverse_impl, hz]
    simp only [Bool.false_eq_true, if_false]
    set v := vmap a with hv_def
    have c2v : (mul (mul a a) a).value_ < 2 ^ 64 := mul_val64 (mul_val64 h64 h64) h64
    have c2 : vmap (mul (mul a a) a) = v ^ 3 := by
      rw [value_mul _ _ (mul_val64 h64 h64) h64, value_mul _ _ h64 h64]; ring
    set b2 := mul (mul a a) a
    have c3v : (mul (mul b2 b2) a).value_ < 2 ^ 64 := mul_val64 (mul_val64 c2v c2v) h64
    have c3 : vmap (mul (mul b2 b2) a) = v ^ 7 := by
      rw [value_mul _ _ (mul_val64 c2v c2v) h64, value_mul _ _ c2v c2v, c2]; ring
    set b3 := mul (mul b2 b2) a
    have c6v : (mul (exp b3 3) b3).value_ < 2 ^ 64 := mul_val64 (exp_val64 c3v 3) c3v
    have c6 : vmap (mul (exp b3 3) b3) = v ^ 63 := by
      rw [value_mul _ _ (exp_val64 c3v 3) c3v, vexp c3v, c3, ← pow_mul, ← pow_add]
      norm_num
    set b6 := mul (exp b3 3) b3
    have c12v : (mul (exp b6 6) b6).value_ < 2 ^ 64 := mul_val64 (exp_val64 c6v 6) c6v
    have c12 : vmap (mul (exp b6 6) b6) = v ^ 4095 := by
      rw [value_mul _ _ (exp_val64 c6v 6) c6v, vexp c6v, c6, ← pow_mul, ← pow_add]
      norm_num
    set b12 := mul (exp b6 6) b6
    have c24v : (mul (exp b12 12) b12).value_ < 2 ^ 64 := mul_val64 (exp_val64 c12v 12) c12v
    have c24 : vmap (mul (exp b12 12) b12) = v ^ 16777215 := by
      rw [value_mul _ _ (exp_val64 c12v 12) c12v, vexp c12v, c12, ← pow_mul, ← pow_add]
      norm_num
    set b24 := mul (exp b12 12) b12
    have c30v : (mul (exp b24 6) b6).value_ < 2 ^ 64 := mul_val64 (exp_val64 c24v 6) c6v
    have c30 : vmap (mul (exp b24 6) b6) = v ^ 1073741823 := by
      rw [value_mul _ _ (exp_val64 c24v 6) c6v, vexp c24v, c24, c6, ← pow_mul, ← pow_add]
      norm_num
    set b30 := mul (exp b24 6) b6
    have c31v : (mul (mul b30 b30) a).value_ < 2 ^ 64 := mul_val64 (mul_val64 c30v c30v) h64
    have c31 : vmap (mul (mul b30 b30) a) = v ^ 2147483647 := by
      rw [value_mul _ _ (mul_val64 c30v c30v) h64, value_mul _ _ c30v c30v, c30,
        ← pow_add, ← hv_def, ← pow_succ]
    set b31 := mul (mul b30 b30) a
    have c3110v : (mul b31 b31).value_ < 2 ^ 64 := mul_val64 c31v c31v
    have c3110 : vmap (mul b31 b31) = v ^ 4294967294 := by
      rw [value_mul _ _ c31v c31v, c31, ← pow_add]
    set b3110 := mul b31 b31
    have c32v : (mul (mul b31 b31) a).value_ < 2 ^ 64 := mul_val64 c3110v h64
    have c32 : vmap (mul (mul b31 b31) a) = v ^ 4294967295 := by
      rw [value_mul _ _ c3110v h64, c3110, ← hv_def, ← pow_succ]
    set b32 := mul (mul b31 b31) a
    have crv : (mul (exp b3110 32) b32).value_ < 2 ^ 64 := mul_val64 (exp_val64 c3110v 32) c32v
    have cr : vmap (mul (exp b3110 32) b32) = v ^ (P - 2) := by
      rw [value_mul _ _ (exp_val64 c3110v 32) c32v, vexp c3110v, c3110, c32, ← pow_mul, ← pow_add]
      norm_num [P]
    refine ⟨mul (exp b3110 32) b32, rfl, ?_, ?_⟩
    · refine value_eq_of_lt (value_lt _ crv) (Nat.mod_lt _ P_pos) ?_
      rw [ZMod.natCast_mod]
      push_cast
      exact cr
    · have hz' := vmap_ne_zero h64 hv
      have hfm : vmap (mul a (mul (exp b3110 32) b32)) = 1 := by
        rw [value_mul _ _ h64 crv, cr, hv_def, ← pow_succ']
        have hexp : P - 2 + 1 = P - 1 := by norm_num [P]
        rw [hexp]
        exact ZMod.pow_card_sub_one_eq_one hz'
      refine value_eq_of_lt (value_lt _ (mul_val64 h64 crv)) (by norm_num [P]) ?_
      rw [Nat.cast_one]
      simpa [vmap] using hfm
  · decide



/-- Bridge: `Nat` powers modulo `P` evaluate through `powM`. -/
theorem pow_bridge (b e : Nat) (he : e < 2 ^ 128) : b ^ e % P = powM b e P :=
  (powM_correct b e P P_pos he).symm

/-- Claim C4 (amended): the primitive-root table: for orders `2^k`, `1 ≤ k ≤ 32`, the entry is
a primitive root (its order-`n` power is one, its order-`n/2` power is
not); the lookup also succeeds at `n = 0` and `n = 1` (both map to one),
and fails with the no-root error for every other order. -/
theorem primitive_root_table_spec :
    (∀ k : Nat, 1 ≤ k → k ≤ 32 →
      ∃ w, primitive_root_of_unity_impl (2 ^ k) = .ok w ∧
        value w ^ 2 ^ k % P = 1 ∧ value w ^ (2 ^ k / 2) % P ≠ 1)
    ∧ primitive_root_of_unity_impl 0 = .ok (new_element 1)
    ∧ primitive_root_of_unity_impl 1 = .ok (new_element 1)
    ∧ (∀ n : Nat, n ≠ 0 → (∀ k : Nat, k ≤ 32 → n ≠ 2 ^ k) →
        primitive_root_of_unity_impl n = .error .noRootOfUnity) := by
  refine ⟨?_, by decide, by decide, ?_⟩
  · intro k h1 h2
    refine ⟨new_element ((PRIMITIVE_ROOTS (2 ^ k)).getD 0), ?_, ?_, ?_⟩
    · interval_cases k <;> decide
    · interval_cases k <;> (rw [pow_bridge _ _ (by norm_num)]; decide)
    · interval_cases k <;> (rw [pow_bridge _ _ (by norm_num)]; decide)
  · intro n h0 hk
    simp only [primitive_root_of_unity_impl, PRIMITIVE_ROOTS]
    rw [if_neg h0,
      if_neg (show n ≠ 1 by simpa using hk 0 (by norm_num)),
      if_neg (show n ≠ 2 by simpa using hk 1 (by norm_num)),
      if_neg (show n ≠ 4 by simpa using hk 2 (by norm_num)),
      if_neg (show n ≠ 8 by simpa using hk 3 (by norm_num)),
      if_neg (show n ≠ 16 by simpa using hk 4 (by norm_num)),
      if_neg (show n ≠ 32 by simpa using hk 5 (by norm_num)),
      if_neg (show n ≠ 64 by simpa using hk 6 (by norm_num)),
      if_neg (show n ≠ 128 by simpa using hk 7 (by norm_num)),
      if_neg (show n ≠ 256 by simpa using hk 8 (by norm_num)),
      if_neg (show n ≠ 512 by simpa using hk 9 (by norm_num)),
      if_neg (show n ≠ 1024 by simpa using hk 10 (by norm_num)),
      if_neg (show n ≠ 2048 by simpa using hk 11 (by norm_num)),
      if_neg (show n ≠ 4096 by simpa using hk 12 (by norm_num)),
      if_neg (show n ≠ 8192 by simpa using hk 13 (by norm_num)),
      if_neg (show n ≠ 16384 by simpa using hk 14 (by norm_num)),
      if_neg (show n ≠ 32768 by simpa using hk 15 (by norm_num)),
      if_neg (show n ≠ 65536 by simpa using hk 16 (by norm_num)),
      if_neg (show n ≠ 131072 by simpa using hk 17 (by norm_num)),
      if_neg (show n ≠ 262144 by simpa using hk 18 (by norm_num)),
      if_neg (show n ≠ 524288 by simpa using hk 19 (by norm_num)),
      if_neg (show n ≠ 1048576 by simpa using hk 20 (by norm_num)),
      if_neg (show n ≠ 2097152 by simpa using hk 21 (by norm_num)),
      if_neg (show n ≠ 4194304 by simpa using hk 22 (by norm_num)),
      if_neg (show n ≠ 8388608 by simpa using hk 23 (by norm_num)),
      if_neg (show n ≠ 16777216 by simpa using hk 24 (by norm_num)),
      if_neg (show n ≠ 33554432 by simpa using hk 25 (by norm_num)),
      if_neg (show n ≠ 67108864 by simpa using hk 26 (by norm_num)),
      if_neg (show n ≠ 134217728 by simpa using hk 27 (by norm_num)),
      if_neg (show n ≠ 268435456 by simpa using hk 28 (by norm_num)),
      if_neg (show n ≠ 536870912 by simpa using hk 29 (by norm_num)),
      if_neg (show n ≠ 1073741824 by simpa using hk 30 (by norm_num)),
      if_neg (show n ≠ 2147483648 by simpa using hk 31 (by norm_num)),
      if_neg (show n ≠ 4294967296 by simpa using hk 32 (by norm_num))]



/-- Claim C5: multiplication computes the canonical product modulo `P`: the
canonical value of `a * b` is `value a * value b mod P`; in particular the
spec's fixed multiplication vector holds. -/
theorem mul_canonical_spec :
    (∀ a b : BFieldElement, a.value_ < 2 ^ 64 → b.value_ < 2 ^ 64 →
      value (mul a b) = value a * value b % P)
    ∧ value (mul (new_element 2779336007265862836) (new_element 8146517303801474933))
        = 1857758653037316764 := by
  exact ⟨value_mul_nat, by decide⟩

/-- Claim C7 (amended): `mod_reduce` congruence and 64-bit range (amended from the `[0, P)`
claim, which fails at `x = P`). -/
theorem mod_reduce_spec (x : Nat) (hx : x < 2 ^ 128) :
    mod_reduce x % P = x % P ∧ mod_reduce x < 2 ^ 64 := by
  have h := mod_reduce_aux (x % 2 ^ 64) (x / 2 ^ 64) (by omega) (by omega)
  have hx' : x / 2 ^ 64 * 2 ^ 64 + x % 2 ^ 64 = x := by omega
  rw [hx'] at h
  exact h

/-- `mod_reduce P` returns `P` itself, which is congruent to `0` but not
inside the half-open interval `[0, P)`. -/
theorem mod_reduce_at_P :
    mod_reduce 18446744069414584321 = 18446744069414584321 ∧
    ¬ mod_reduce 18446744069414584321 < P := by
  constructor <;> decide

theorem exp_lt {a : BFieldElement} (ha : a.value_ < P) (n : Nat) : (exp a n).value_ < P := by
  induction n with
  | zero => exact ha
  | succ n ih => exact mul_lt ih ih

set_option maxRecDepth 4000 in
/-- Claim C10: every base-field operation preserves the Montgomery-residue invariant
`value_ < P`. -/
theorem invariant_preservation :
    (∀ v : Nat, (new_element v).value_ < P)
    ∧ (∀ a b : BFieldElement, a.value_ < P → b.value_ < P →
        (add a b).value_ < P ∧ (sub a b).value_ < P ∧ (mul a b).value_ < P)
    ∧ (∀ a : BFieldElement, a.value_ < P → (neg a).value_ < P)
    ∧ (∀ a : BFieldElement, a.value_ < P → ∀ n : Nat, (exp a n).value_ < P)
    ∧ (∀ a : BFieldElement, a.value_ < P → ∀ e : Nat, (mod_pow a e).value_ < P)
    ∧ (∀ a r : BFieldElement, a.value_ < P → inverse_impl a = .ok r → r.value_ < P) := by
  have hbz : BZERO.value_ < P := new_element_lt 0
  have hbo : BONE.value_ < P := new_element_lt 1
  refine ⟨new_element_lt, fun a b ha hb => ⟨add_lt ha hb, sub_lt ha hb, mul_lt ha hb⟩,
    fun a ha => sub_lt hbz ha, fun a ha n => exp_lt ha n, ?_, ?_⟩
  · intro a ha e
    have haux : ∀ (f : BFieldElement → Nat → BFieldElement),
        (∀ acc i, acc.value_ < P → (f acc i).value_ < P) →
        ∀ (l : List Nat) (acc : BFieldElement), acc.value_ < P →
          (List.foldl f acc l).value_ < P := by
      intro f hf l
      induction l with
      | nil => exact fun acc h => h
      | cons hd tl ih => exact fun acc h => ih _ (hf _ _ h)
    rw [mod_pow]
    refine haux _ ?_ _ BONE hbo
    intro acc i hacc
    dsimp only
    split_ifs
    · exact mul_lt (mul_lt hacc hacc) ha
    · exact mul_lt hacc hacc
  · intro a r ha hok
    rw [inverse_impl] at hok
    by_cases hz : is_zero a
    · rw [if_pos hz] at hok
      exact absurd hok (by simp)
    · rw [if_neg hz] at hok
      simp only [] at hok
      have hr := (Except.ok.inj hok).symm
      subst hr
      set b2 := mul (mul a a) a with hb2_def
      have hb2 : b2.value_ < P := mul_lt (mul_lt ha ha) ha
      set b3 := mul (mul b2 b2) a with hb3_def
      have hb3 : b3.value_ < P := mul_lt (mul_lt hb2 hb2) ha
      set b6 := mul (exp b3 3) b3 with hb6_def
      have hb6 : b6.value_ < P := mul_lt (exp_lt hb3 3) hb3
      set b12 := mul (exp b6 6) b6 with hb12_def
      have hb12 : b12.value_ < P := mul_lt (exp_lt hb6 6) hb6
      set b24 := mul (exp b12 12) b12 with hb24_def
      have hb24 : b24.value_ < P := mul_lt (exp_lt hb12 12) hb12
      set b30 := mul (exp b24 6) b6 with hb30_def
      have hb30 : b30.value_ < P := mul_lt (exp_lt hb24 6) hb6
      set b31 := mul (mul b30 b30) a with hb31_def
      have hb31 : b31.value_ < P := mul_lt (mul_lt hb30 hb30) ha
      exact mul_lt (exp_lt (mul_lt hb31 hb31) 32) (mul_lt (mul_lt hb31 hb31) ha)



set_option maxRecDepth 8000 in
/-- Claim C1: the norm-based extension-field inversion formula does not invert:
at `t = x` (the triple `(0, 1, 0)`) the routine returns `t` itself, yet
`t * t = x^2 = (0, 0, 1)` which is not `ONE`.  Inversion of zero does
fail with `InverseOfZero`. -/
theorem x_inverse_formula_bug :
    inverse_impl_x ⟨new_element 0, new_element 1, new_element 0⟩ =
      .ok ⟨new_element 0, new_element 1, new_element 0⟩
    ∧ value (xmul ⟨new_element 0, new_element 1, new_element 0⟩
        ⟨new_element 0, new_element 1, new_element 0⟩).c0 = 0
    ∧ value (xmul ⟨new_element 0, new_element 1, new_element 0⟩
        ⟨new_element 0, new_element 1, new_element 0⟩).c1 = 0
    ∧ value (xmul ⟨new_element 0, new_element 1, new_element 0⟩
        ⟨new_element 0, new_element 1, new_element 0⟩).c2 = 1
    ∧ is_one_x (xmul ⟨new_element 0, new_element 1, new_element 0⟩
        ⟨new_element 0, new_element 1, new_element 0⟩) = false
    ∧ inverse_impl_x XZERO = .error .inverseOfZero := by
  refine ⟨by decide, by decide, by decide, by decide, by decide, by decide⟩

theorem cycAux_zero_none : ∀ (fuel : Nat) (acc : List XFieldElement),
    cycAux XZERO 0 fuel XZERO acc = none := by
  intro fuel
  induction fuel with
  | zero => intro acc; rfl
  | succ fuel ih =>
    intro acc
    have h1 : is_one_x XZERO = false := by decide
    have h2 : xmul XZERO XZERO = XZERO := by decide
    rw [cycAux, if_pos ⟨h1, Or.inl rfl⟩, h2]
    exact ih _

/-- Claim C9: the cyclic-group enumeration of the zero extension-field element with
no cap never terminates: for every iteration bound the loop is still
running. -/
theorem cyclic_zero_diverges (fuel : Nat) :
    cyclic_group_elements_impl XZERO 0 fuel = none :=
  cycAux_zero_none fuel [XONE]


deriving instance DecidableEq for Except


theorem land_pred_eq_zero_iff (n : Nat) (h0 : n ≠ 0) :
    n &&& (n - 1) = 0 ↔ ∃ k, n = 2 ^ k := by
  constructor
  · intro h
    refine ⟨Nat.log2 n, ?_⟩
    by_contra hne
    have h1 : 2 ^ Nat.log2 n ≤ n := Nat.log2_self_le h0
    have h2 : n < 2 ^ (Nat.log2 n + 1) := Nat.lt_log2_self
    set k := Nat.log2 n
    have hgt : 2 ^ k < n := lt_of_le_of_ne h1 (fun hh => hne hh.symm)
    have h3 : 2 ^ (k + 1) = 2 ^ k * 2 := by ring
    have hb1 : n.testBit k = true := by
      rw [Nat.testBit_to_div_mod]
      have hd : n / 2 ^ k = 1 :=
        Nat.div_eq_of_lt_le (by omega) (by omega)
      simp [hd]
    have hb2 : (n - 1).testBit k = true := by
      rw [Nat.testBit_to_div_mod]
      have hd : (n - 1) / 2 ^ k = 1 :=
        Nat.div_eq_of_lt_le (by omega) (by omega)
      simp [hd]
    have := congrArg (fun m => m.testBit k) h
    simp only [Nat.testBit_and, hb1, hb2, Nat.zero_testBit, Bool.and_self] at this
    exact absurd this (by decide)
  · rintro ⟨k, rfl⟩
    apply Nat.eq_of_testBit_eq
    intro i
    rw [Nat.testBit_and, Nat.zero_testBit, Nat.testBit_two_pow_sub_one]
    by_cases hik : k = i
    · subst hik
      simp
    · rw [Nat.testBit_two_pow_of_ne hik]
      simp


/-- The root table has no entry at any power of two above `2^32`. -/
theorem roots_none_of_large (k : Nat) (hk : 33 ≤ k) : PRIMITIVE_ROOTS (2 ^ k) = none := by
  have hge : (8589934592 : Nat) ≤ 2 ^ k := by
    calc (8589934592 : Nat) = 2 ^ 33 := by norm_num
    _ ≤ 2 ^ k := Nat.pow_le_pow_right (by norm_num) hk
  simp only [PRIMITIVE_ROOTS]
  rw [if_neg (show (2:Nat) ^ k ≠ 0 by positivity),
    if_neg (show (2:Nat) ^ k ≠ 1 by omega),
    if_neg (show (2:Nat) ^ k ≠ 2 by omega),
    if_neg (show (2:Nat) ^ k ≠ 4 by omega),
    if_neg (show (2:Nat) ^ k ≠ 8 by omega),
    if_neg (show (2:Nat) ^ k ≠ 16 by omega),
    if_neg (show (2:Nat) ^ k ≠ 32 by omega),
    if_neg (show (2:Nat) ^ k ≠ 64 by omega),
    if_neg (show (2:Nat) ^ k ≠ 128 by omega),
    if_neg (show (2:Nat) ^ k ≠ 256 by omega),
    if_neg (show (2:Nat) ^ k ≠ 512 by omega),
    if_neg (show (2:Nat) ^ k ≠ 1024 by omega),
    if_neg (show (2:Nat) ^ k ≠ 2048 by omega),
    if_neg (show (2:Nat) ^ k ≠ 4096 by omega),
    if_neg (show (2:Nat) ^ k ≠ 8192 by omega),
    if_neg (show (2:Nat) ^ k ≠ 16384 by omega),
    if_neg (show (2:Nat) ^ k ≠ 32768 by omega),
    if_neg (show (2:Nat) ^ k ≠ 65536 by omega),
    if_neg (show (2:Nat) ^ k ≠ 131072 by omega),
    if_neg (show (2:Nat) ^ k ≠ 262144 by omega),
    if_neg (show (2:Nat) ^ k ≠ 524288 by omega),
    if_neg (show (2:Nat) ^ k ≠ 1048576 by omega),
    if_neg (show (2:Nat) ^ k ≠ 2097152 by omega),
    if_neg (show (2:Nat) ^ k ≠ 4194304 by omega),
    if_neg (show (2:Nat) ^ k ≠ 8388608 by omega),
    if_neg (show (2:Nat) ^ k ≠ 16777216 by omega),
    if_neg (show (2:Nat) ^ k ≠ 33554432 by omega),
    if_neg (show (2:Nat) ^ k ≠ 67108864 by omega),
    if_neg (show (2:Nat) ^ k ≠ 134217728 by omega),
    if_neg (show (2:Nat) ^ k ≠ 268435456 by omega),
    if_neg (show (2:Nat) ^ k ≠ 536870912 by omega),
    if_neg (show (2:Nat) ^ k ≠ 1073741824 by omega),
    if_neg (show (2:Nat) ^ k ≠ 2147483648 by omega),
    if_neg (show (2:Nat) ^ k ≠ 4294967296 by omega)]

theorem ntt_ok_nil {α : Type} (ops : FFOps α) (x : List α) (h : x.length = 0) :
    ntt ops x = .ok x ∧ intt ops x = .ok x := by
  rw [ntt, intt]
  simp [h]

theorem ensure_err_nonpow (n : Nat) (h0 : n ≠ 0) (hk : ∀ k : Nat, n ≠ 2 ^ k) :
    ensure_power_of_two n = .error .invalidLength := by
  have hland : n &&& (n - 1) ≠ 0 := by
    intro hl
    obtain ⟨k, rfl⟩ := (land_pred_eq_zero_iff n h0).mp hl
    exact hk k rfl
  rw [ensure_power_of_two, if_pos (Or.inr hland)]

theorem ensure_ok_pow (k : Nat) : ensure_power_of_two (2 ^ k) = .ok () := by
  have hland : 2 ^ k &&& (2 ^ k - 1) = 0 := (land_pred_eq_zero_iff _ (by positivity)).mpr ⟨k, rfl⟩
  rw [ensure_power_of_two, if_neg]
  push_neg
  exact ⟨by positivity, hland⟩

theorem ntt_err_nonpow {α : Type} (ops : FFOps α) (x : List α) (h0 : x.length ≠ 0)
    (hk : ∀ k : Nat, x.length ≠ 2 ^ k) :
    ntt ops x = .error .invalidLength ∧ intt ops x = .error .invalidLength := by
  have he := ensure_err_nonpow x.length h0 hk
  constructor
  · simp only [ntt, if_neg h0, he]
  · simp only [intt, if_neg h0, he]

theorem ntt_err_bigpow {α : Type} (ops : FFOps α) (x : List α) (k : Nat) (hk : 33 ≤ k)
    (h : x.length = 2 ^ k) :
    ntt ops x = .error .noRootOfUnity ∧ intt ops x = .error .noRootOfUnity := by
  have h0 : x.length ≠ 0 := by simp [h]
  have hr : primitive_root_of_unity_impl x.length = .error .noRootOfUnity := by
    rw [primitive_root_of_unity_impl, h, roots_none_of_large k hk]
  have hen : ensure_power_of_two x.length = .ok () := by
    rw [h]; exact ensure_ok_pow k
  constructor
  · simp only [ntt, if_neg h0, hen, hr]
  · simp only [intt, if_neg h0, hen, hr]

/-- Claim C3 (amended): length checking of the checked NTT entry points: empty input returns
unchanged; a non-power-of-two length fails with `InvalidLength`; a
power-of-two length above `2^32` fails with `NoRootOfUnity` (not
`InvalidLength`). -/
theorem ntt_intt_length_checks {α : Type} (ops : FFOps α) (x : List α) :
    (x.length = 0 → ntt ops x = .ok x ∧ intt ops x = .ok x)
    ∧ (x.length ≠ 0 → (∀ k : Nat, x.length ≠ 2 ^ k) →
        ntt ops x = .error .invalidLength ∧ intt ops x = .error .invalidLength)
    ∧ (∀ k : Nat, 33 ≤ k → x.length = 2 ^ k →
        ntt ops x = .error .noRootOfUnity ∧ intt ops x = .error .noRootOfUnity) :=
  ⟨ntt_ok_nil ops x, ntt_err_nonpow ops x, fun k hk h => ntt_err_bigpow ops x k hk h⟩

theorem ntt_intt_length_checks_witness :
    ([BZERO, BZERO, BZERO] : List BFieldElement).length ≠ 0 ∧
    ntt bOps [BZERO, BZERO, BZERO] = .error .invalidLength ∧
    intt bOps [BZERO, BZERO, BZERO] = .error .invalidLength := by
  have hlen : ([BZERO, BZERO, BZERO] : List BFieldElement).length = 3 := by simp
  have h0 : ([BZERO, BZERO, BZERO] : List BFieldElement).length ≠ 0 := by rw [hlen]; omega
  have h3 : ∀ k : Nat, ([BZERO, BZERO, BZERO] : List BFieldElement).length ≠ 2 ^ k := by
    rw [hlen]
    intro k h
    rcases Nat.lt_or_ge k 2 with h4 | h4
    · interval_cases k <;> norm_num at h
    · have h5 : (4 : Nat) ≤ 2 ^ k := by
        calc (4 : Nat) = 2 ^ 2 := by norm_num
        _ ≤ 2 ^ k := Nat.pow_le_pow_right (by norm_num) h4
      omega
  have hmain := (ntt_intt_length_checks bOps [BZERO, BZERO, BZERO]).2.1 h0 h3
  exact ⟨h0, hmain.1, hmain.2⟩

/-- At length `2^33` (a power of two above the table), the checked
forward transform fails with the no-root kind, not `InvalidLength`. -/
theorem ntt_big_length_wrong_error :
    ntt bOps (List.replicate (2 ^ 33) BZERO) = .error .noRootOfUnity ∧
    Err.noRootOfUnity ≠ Err.invalidLength := by
  refine ⟨(ntt_err_bigpow bOps _ 33 le_rfl (by rw [List.length_replicate])).1, by decide⟩

/-! ### The `uint32_t` length truncation in `ntt_unchecked` -/

theorem kLoop_zero_len {α : Type} (ops : FFOps α) (w_m : BFieldElement) (m : Nat)
    (fuel k : Nat) (x : List α) : kLoop ops w_m m 0 fuel k x = x := by
  cases fuel with
  | zero => rfl
  | succ fuel => simp [kLoop]

theorem foldl_fixed {α β : Type} (f : α → β → α) (x : α) (l : List β)
    (h : ∀ y a, a ∈ l → f y a = y) : l.foldl f x = x := by
  induction l generalizing x with
  | nil => rfl
  | cons hd tl ih =>
    rw [List.foldl_cons, h x hd (by simp)]
    exact ih x (fun y a ha => h y a (by simp [ha]))

/-- With the `uint32_t` cast, a length that is a multiple of `2^32` makes
`ntt_unchecked` a no-op: the truncated `slice_len` is zero, so neither the
bit-reversal loop nor any butterfly executes. -/
theorem ntt_unchecked_trunc_id {α : Type} (ops : FFOps α) (x : List α)
    (w : BFieldElement) (log2len : Nat) (h : x.length % 2 ^ 32 = 0) :
    ntt_unchecked ops x w log2len = x := by
  simp only [ntt_unchecked, h]
  rw [List.range_zero, List.foldl_nil]
  refine foldl_fixed _ _ _ ?_
  intro y a _
  exact kLoop_zero_len ops _ _ _ _ _

/-- The checked forward transform at any length-`2^32` input returns it
unchanged: the length check and root lookup succeed, but the butterflies
run over the truncated (zero) length. -/
theorem ntt_at_pow32 (x : List BFieldElement) (hlen : x.length = 2 ^ 32) :
    ntt bOps x = .ok x := by
  have h0 : x.length ≠ 0 := by rw [hlen]; norm_num
  have hen : ensure_power_of_two x.length = .ok () := by
    rw [hlen]; exact ensure_ok_pow 32
  have hroot : primitive_root_of_unity_impl x.length
      = .ok (new_element 1753635133440165772) := by
    rw [hlen]; decide
  have hmod : x.length % 2 ^ 32 = 0 := by rw [hlen]; norm_num
  simp only [ntt, if_neg h0, hen, hroot]
  rw [ntt_unchecked_trunc_id bOps _ _ _ hmod]

set_option maxRecDepth 16000 in
/-- The checked inverse transform at any length-`2^32` input only scales
each element by the inverse of `2^32` (Montgomery residue `4294967296`):
the butterflies run over the truncated (zero) length. -/
theorem intt_at_pow32 (x : List BFieldElement) (hlen : x.length = 2 ^ 32) :
    intt bOps x = .ok (x.map fun el => mul el (⟨4294967296⟩ : BFieldElement)) := by
  have h0 : x.length ≠ 0 := by rw [hlen]; norm_num
  have hen : ensure_power_of_two x.length = .ok () := by
    rw [hlen]; exact ensure_ok_pow 32
  have hroot : primitive_root_of_unity_impl x.length
      = .ok (new_element 1753635133440165772) := by
    rw [hlen]; decide
  have hmod : x.length % 2 ^ 32 = 0 := by rw [hlen]; norm_num
  have hoinv : inverse_impl (new_element 1753635133440165772)
      = .ok (⟨13185562345416213170⟩ : BFieldElement) := by decide
  have hninv : inverse_impl (new_element (x.length % U64))
      = .ok (⟨4294967296⟩ : BFieldElement) := by
    rw [hlen]; decide
  simp only [intt, if_neg h0, hen, hroot, hoinv, hninv]
  rw [ntt_unchecked_trunc_id bOps _ _ _ hmod]
  rfl

/-- Claim C2: at length `2^32` the checked forward transform silently returns its
input unchanged (the `uint32_t` cast truncates the length to zero), and
the checked inverse transform then scales by the inverse of `2^32`, so the
round trip does not restore the all-ones sequence. -/
theorem ntt_roundtrip_bug :
    ntt bOps (List.replicate (2 ^ 32) BONE) = .ok (List.replicate (2 ^ 32) BONE)
    ∧ intt bOps (List.replicate (2 ^ 32) BONE) =
        .ok (List.replicate (2 ^ 32) (⟨4294967296⟩ : BFieldElement))
    ∧ List.replicate (2 ^ 32) (⟨4294967296⟩ : BFieldElement) ≠ List.replicate (2 ^ 32) BONE
    ∧ value (⟨4294967296⟩ : BFieldElement) ≠ value BONE := by
  refine ⟨ntt_at_pow32 _ (List.length_replicate _ _), ?_, ?_, by decide⟩
  · rw [intt_at_pow32 _ (List.length_replicate _ _), List.map_replicate,
      show mul BONE (⟨4294967296⟩ : BFieldElement) = (⟨4294967296⟩ : BFieldElement) by decide]
  · intro hc
    rw [show (2 ^ 32 : Nat) = 2 ^ 32 - 1 + 1 by norm_num, List.replicate_succ,
      List.replicate_succ] at hc
    injection hc with h1 _
    exact absurd h1 (by decide)



/-! ### Generic fold and list helpers for the no-swap NTT analysis -/

theorem foldl_fixedpt {α β : Type} (f : α → β → α) (x : α) (l : List β)
    (h : ∀ a ∈ l, f x a = x) : l.foldl f x = x := by
  induction l with
  | nil => rfl
  | cons hd tl ih =>
    rw [List.foldl_cons, h hd (by simp)]
    exact ih (fun a ha => h a (by simp [ha]))

theorem getD_replicate {α : Type} (a d : α) {n i : Nat} (h : i < n) :
    (List.replicate n a).getD i d = a := by
  rw [List.getD_eq_getElem?_getD, List.getElem?_replicate, if_pos h]
  rfl

theorem getD_replicate_self {α : Type} (a : α) (n i : Nat) :
    (List.replicate n a).getD i a = a := by
  by_cases h : i < n
  · exact getD_replicate a a h
  · exact List.getD_eq_default _ _ (by simp; omega)

theorem set_replicate_self {α : Type} (a : α) (n i : Nat) :
    (List.replicate n a).set i a = List.replicate n a := by
  induction n generalizing i with
  | zero => rfl
  | succ n ih =>
    cases i with
    | zero => rw [List.replicate_succ, List.set_cons_zero]
    | succ i => rw [List.replicate_succ, List.set_cons_succ, ih, ← List.replicate_succ]

theorem getD_zero_set_ne {α : Type} (l : List α) (p : Nat) (v d : α) (hp : p ≠ 0) :
    (l.set p v).getD 0 d = l.getD 0 d := by
  cases l with
  | nil => rfl
  | cons a t =>
    cases p with
    | zero => exact absurd rfl hp
    | succ p => rw [List.set_cons_succ, List.getD_cons_zero, List.getD_cons_zero]

theorem getD_boundary {α : Type} (a b d : α) (jo c : Nat) :
    (List.replicate jo a ++ List.replicate (c + 1) b).getD jo d = b := by
  rw [List.getD_append_right _ _ d jo (by simp)]
  simp only [List.length_replicate, Nat.sub_self, List.replicate_succ, List.getD_cons_zero]

theorem set_boundary {α : Type} (a b : α) (jo c : Nat) :
    (List.replicate jo a ++ List.replicate (c + 1) b).set jo a
    = List.replicate (jo + 1) a ++ List.replicate c b := by
  rw [List.replicate_succ b c, List.set_append_right _ _ (by simp)]
  simp only [List.length_replicate, Nat.sub_self, List.set_cons_zero]
  rw [List.replicate_succ' jo a, List.append_assoc, List.singleton_append]

/-! ### Element-level facts used by the butterfly analysis -/

theorem mul_one_exact {a : BFieldElement} (ha : a.value_ < P) : mul a BONE = a := by
  obtain ⟨av⟩ := a
  have h64 : av < 2 ^ 64 := lt_of_lt_of_le ha (by norm_num [P])
  have hx : av * 4294967295 < P * 2 ^ 64 := by
    calc av * 4294967295 ≤ (P - 1) * 4294967295 :=
          Nat.mul_le_mul_right _ (by simp only [P] at ha ⊢; omega)
      _ < P * 2 ^ 64 := by norm_num [P]
  have hm := montyred_spec (av * 4294967295) (lt_trans hx (by norm_num [P]))
  show (⟨montyred (av * BONE.value_)⟩ : BFieldElement) = ⟨av⟩
  rw [show BONE.value_ = 4294967295 from by decide]
  congr 1
  refine value_eq_of_lt (hm.2.2 hx) ha ?_
  have hz : ((montyred (av * 4294967295) * 2 ^ 64 % P : Nat) : ZMod P)
      = ((av * 4294967295 % P : Nat) : ZMod P) := by rw [hm.1]
  rw [ZMod.natCast_mod, ZMod.natCast_mod, Nat.cast_mul, Nat.cast_mul] at hz
  have hcast : ((2 ^ 64 : Nat) : ZMod P) = ((4294967295 : Nat) : ZMod P) := by
    conv_lhs => rw [← ZMod.natCast_mod]
    norm_num [P]
  rw [← hcast] at hz
  have hunit : (((2 : Nat) ^ 64 : Nat) : ZMod P) ≠ 0 := by
    rw [show (((2 : Nat) ^ 64 : Nat) : ZMod P) = (2 : ZMod P) ^ 64 from by push_cast; ring]
    exact u64_unit
  exact mul_right_cancel₀ hunit hz

theorem sub_self_zero (a : BFieldElement) : sub a a = ⟨0⟩ := by
  simp only [sub, lt_irrefl, if_false]
  congr 1
  simp only [U64, P]
  omega

theorem zero_mul_elem (w : BFieldElement) : mul (⟨0⟩ : BFieldElement) w = ⟨0⟩ := by
  show (⟨montyred (0 * w.value_)⟩ : BFieldElement) = ⟨0⟩
  rw [Nat.zero_mul]
  decide

/-! ### The `size_t` bit-reversal never maps a nonzero index to zero -/

theorem brGoU_zero (l : Nat) : brGoU 0 0 l = 0 := by
  induction l with
  | zero => rfl
  | succ l ih => simpa [brGoU] using ih

theorem brGoU_eq_zero {r n l : Nat} (h : brGoU r n l = 0) : r = 0 ∧ n % 2 ^ l = 0 := by
  induction l generalizing r n with
  | zero => exact ⟨h, Nat.mod_one n⟩
  | succ l ih =>
    obtain ⟨h1, h2⟩ := ih h
    have hr : r = 0 := by omega
    have hn2 : n % 2 = 0 := by omega
    refine ⟨hr, ?_⟩
    have hdvd : (2 : Nat) ^ (l + 1) ∣ n := by
      obtain ⟨m, hm⟩ := Nat.dvd_of_mod_eq_zero hn2
      have hm2 : n / 2 = m := by omega
      obtain ⟨k, hk⟩ := Nat.dvd_of_mod_eq_zero h2
      rw [pow_succ, hm]
      exact ⟨k, by rw [hm2] at hk; rw [hk]; ring⟩
    exact Nat.mod_eq_zero_of_dvd hdvd

theorem bitrev_usize_ne_zero {i w : Nat} (h1 : 1 ≤ i) (h2 : i < 2 ^ w) :
    bitreverse_usize i w ≠ 0 := by
  intro hc
  obtain ⟨-, h⟩ := brGoU_eq_zero hc
  rw [Nat.mod_eq_of_lt h2] at h
  omega

/-! ### Butterfly steps on the all-zero region are no-ops -/

theorem jstep_zero {α : Type} (ops : FFOps α) (Z : α) (W : BFieldElement)
    (F : List α) (K j t2 : Nat)
    (hd : ops.dflt = Z) (hmulZ : ops.fmulB Z W = Z)
    (haddZ : ops.fadd Z Z = Z) (hsubZ : ops.fsub Z Z = Z)
    (hj : F.length ≤ j) :
    (((F ++ List.replicate K Z).set j
        (ops.fadd ((F ++ List.replicate K Z).getD j ops.dflt)
          (ops.fmulB ((F ++ List.replicate K Z).getD (j + t2) ops.dflt) W))).set (j + t2)
      (ops.fsub ((F ++ List.replicate K Z).getD j ops.dflt)
        (ops.fmulB ((F ++ List.replicate K Z).getD (j + t2) ops.dflt) W)))
    = F ++ List.replicate K Z := by
  have hget : ∀ p, F.length ≤ p → (F ++ List.replicate K Z).getD p ops.dflt = Z := by
    intro p hp
    rw [List.getD_append_right _ _ _ p hp, hd]
    exact getD_replicate_self _ _ _
  have hset : ∀ p, F.length ≤ p → (F ++ List.replicate K Z).set p Z = F ++ List.replicate K Z := by
    intro p hp
    rw [List.set_append_right _ _ hp, set_replicate_self]
  rw [hget j hj, hget (j + t2) (le_trans hj (Nat.le_add_right _ _)), hmulZ, haddZ, hsubZ,
    hset j hj, hset (j + t2) (le_trans hj (Nat.le_add_right _ _))]

/-! ### Block 0 of a butterfly stage on the all-`U` prefix -/

theorem jfold_block0_go {α : Type} (ops : FFOps α) (W : BFieldElement) (U A Z : α)
    (hmulU : ops.fmulB U W = U) (haddU : ops.fadd U U = A) (hsubU : ops.fsub U U = Z)
    (T : List α) (t2 : Nat) :
    ∀ c jo, jo + c = t2 →
    (List.range' jo c).foldl
      (fun z jo' =>
        (z.set jo' (ops.fadd (z.getD jo' ops.dflt)
            (ops.fmulB (z.getD (jo' + t2) ops.dflt) W))).set (jo' + t2)
          (ops.fsub (z.getD jo' ops.dflt)
            (ops.fmulB (z.getD (jo' + t2) ops.dflt) W)))
      ((List.replicate jo A ++ List.replicate c U)
        ++ ((List.replicate jo Z ++ List.replicate c U) ++ T))
    = List.replicate t2 A ++ (List.replicate t2 Z ++ T) := by
  intro c
  induction c with
  | zero =>
    intro jo h
    rw [List.range'_zero, List.foldl_nil]
    have hjo : jo = t2 := by omega
    subst hjo
    simp only [List.replicate_zero, List.append_nil]
  | succ c ih =>
    intro jo h
    rw [List.range'_succ jo c 1, List.foldl_cons]
    have hlenF : (List.replicate jo A ++ List.replicate (c + 1) U).length = t2 := by
      simp only [List.length_append, List.length_replicate]; omega
    have hu : ((List.replicate jo A ++ List.replicate (c + 1) U)
        ++ ((List.replicate jo Z ++ List.replicate (c + 1) U) ++ T)).getD jo ops.dflt = U := by
      rw [List.getD_append _ _ _ jo (by rw [hlenF]; omega)]
      exact getD_boundary A U ops.dflt jo c
    have hv : ((List.replicate jo A ++ List.replicate (c + 1) U)
        ++ ((List.replicate jo Z ++ List.replicate (c + 1) U) ++ T)).getD (jo + t2) ops.dflt
        = U := by
      rw [List.getD_append_right _ _ _ (jo + t2) (by rw [hlenF]; omega), hlenF,
        show jo + t2 - t2 = jo from by omega,
        List.getD_append _ _ _ jo (by simp only [List.length_append, List.length_replicate]; omega)]
      exact getD_boundary Z U ops.dflt jo c
    rw [hu, hv, hmulU, haddU, hsubU]
    have hs1 : ((List.replicate jo A ++ List.replicate (c + 1) U)
        ++ ((List.replicate jo Z ++ List.replicate (c + 1) U) ++ T)).set jo A
        = (List.replicate (jo + 1) A ++ List.replicate c U)
          ++ ((List.replicate jo Z ++ List.replicate (c + 1) U) ++ T) := by
      rw [List.set_append_left _ _ (by rw [hlenF]; omega), set_boundary]
    rw [hs1]
    have hlenF' : (List.replicate (jo + 1) A ++ List.replicate c U).length = t2 := by
      simp only [List.length_append, List.length_replicate]; omega
    have hs2 : ((List.replicate (jo + 1) A ++ List.replicate c U)
        ++ ((List.replicate jo Z ++ List.replicate (c + 1) U) ++ T)).set (jo + t2) Z
        = (List.replicate (jo + 1) A ++ List.replicate c U)
          ++ ((List.replicate (jo + 1) Z ++ List.replicate c U) ++ T) := by
      rw [List.set_append_right _ _ (by rw [hlenF']; omega), hlenF',
        show jo + t2 - t2 = jo from by omega,
        List.set_append_left _ _ (by simp only [List.length_append, List.length_replicate]; omega),
        set_boundary]
    rw [hs2]
    exact ih (jo + 1) (by omega)

theorem jfold_block0 {α : Type} (ops : FFOps α) (W : BFieldElement) (U A Z : α)
    (hmulU : ops.fmulB U W = U) (haddU : ops.fadd U U = A) (hsubU : ops.fsub U U = Z)
    (T : List α) (t2 : Nat) :
    (List.range t2).foldl
      (fun z jo' =>
        (z.set jo' (ops.fadd (z.getD jo' ops.dflt)
            (ops.fmulB (z.getD (jo' + t2) ops.dflt) W))).set (jo' + t2)
          (ops.fsub (z.getD jo' ops.dflt)
            (ops.fmulB (z.getD (jo' + t2) ops.dflt) W)))
      (List.replicate t2 U ++ (List.replicate t2 U ++ T))
    = List.replicate t2 A ++ (List.replicate t2 Z ++ T) := by
  have h := jfold_block0_go ops W U A Z hmulU haddU hsubU T t2 t2 0 (by omega)
  rw [List.range_eq_range']
  simpa only [List.replicate_zero, List.nil_append] using h

/-! ### Blocks past the nonzero prefix leave the state unchanged -/

theorem blocks_fixed {α : Type} (ops : FFOps α) (Z : α) (pw : List BFieldElement)
    (t2 : Nat) (F : List α) (K : Nat)
    (hd : ops.dflt = Z) (hmulZ : ∀ w, ops.fmulB Z w = Z)
    (haddZ : ops.fadd Z Z = Z) (hsubZ : ops.fsub Z Z = Z)
    (l : List Nat) (hl : ∀ i ∈ l, F.length ≤ i * t2 * 2) :
    l.foldl
      (fun y i =>
        (List.range t2).foldl
          (fun z jo =>
            (z.set (i * t2 * 2 + jo) (ops.fadd (z.getD (i * t2 * 2 + jo) ops.dflt)
                (ops.fmulB (z.getD (i * t2 * 2 + jo + t2) ops.dflt) (pw.getD i BZERO)))).set
              (i * t2 * 2 + jo + t2)
              (ops.fsub (z.getD (i * t2 * 2 + jo) ops.dflt)
                (ops.fmulB (z.getD (i * t2 * 2 + jo + t2) ops.dflt) (pw.getD i BZERO))))
          y)
      (F ++ List.replicate K Z)
    = F ++ List.replicate K Z := by
  refine foldl_fixedpt _ _ _ ?_
  intro i hi
  dsimp only
  refine foldl_fixedpt _ _ _ ?_
  intro jo _
  dsimp only
  exact jstep_zero ops Z (pw.getD i BZERO) F K (i * t2 * 2 + jo) t2 hd (hmulZ _) haddZ hsubZ
    (le_trans (hl i hi) (Nat.le_add_right _ _))

/-! ### One full butterfly stage on the segment state -/

theorem stage_fold {α : Type} (ops : FFOps α) (pw : List BFieldElement) (U A Z : α)
    (hd : ops.dflt = Z)
    (hmulU : ops.fmulB U (pw.getD 0 BZERO) = U)
    (haddU : ops.fadd U U = A) (hsubU : ops.fsub U U = Z)
    (hmulZ : ∀ w, ops.fmulB Z w = Z) (haddZ : ops.fadd Z Z = Z) (hsubZ : ops.fsub Z Z = Z)
    (t2 K m : Nat) (hm : 1 ≤ m) :
    (List.range m).foldl
      (fun y i =>
        (List.range t2).foldl
          (fun z jo =>
            (z.set (i * t2 * 2 + jo) (ops.fadd (z.getD (i * t2 * 2 + jo) ops.dflt)
                (ops.fmulB (z.getD (i * t2 * 2 + jo + t2) ops.dflt) (pw.getD i BZERO)))).set
              (i * t2 * 2 + jo + t2)
              (ops.fsub (z.getD (i * t2 * 2 + jo) ops.dflt)
                (ops.fmulB (z.getD (i * t2 * 2 + jo + t2) ops.dflt) (pw.getD i BZERO))))
          y)
      (List.replicate t2 U ++ (List.replicate t2 U ++ List.replicate K Z))
    = List.replicate t2 A ++ List.replicate (t2 + K) Z := by
  have hrange : List.range m = 0 :: List.range' 1 (m - 1) := by
    obtain ⟨m', rfl⟩ : ∃ m', m = m' + 1 := ⟨m - 1, by omega⟩
    rw [List.range_eq_range', List.range'_succ]
    norm_num
  rw [hrange, List.foldl_cons]
  simp only [Nat.zero_mul, Nat.zero_add]
  rw [jfold_block0 ops (pw.getD 0 BZERO) U A Z hmulU haddU hsubU (List.replicate K Z) t2,
    ← List.replicate_add]
  refine blocks_fixed ops Z pw t2 (List.replicate t2 A) (t2 + K) hd hmulZ haddZ hsubZ _ ?_
  intro i hi
  have h1 : 1 ≤ i := (List.mem_range'_1.1 hi).1
  rw [List.length_replicate]
  calc t2 = t2 * 1 := (mul_one t2).symm
    _ ≤ t2 * (2 * i) := Nat.mul_le_mul_left t2 (by omega)
    _ = i * t2 * 2 := by ring

/-! ### Doubling accumulator and the full stage recursion -/

theorem noswap_stages (pw : List BFieldElement) (hpw : pw.getD 0 BZERO = BONE) :
    ∀ d, d ≤ 32 → ∀ U : BFieldElement, U.value_ < P → ∀ fuel, d < fuel →
    noswapStage bOps pw (2 ^ 32) fuel (2 ^ (32 - d)) (2 ^ d)
      (List.replicate (2 ^ d) U ++ List.replicate (2 ^ 32 - 2 ^ d) (⟨0⟩ : BFieldElement))
    = List.replicate 1 (dblPow d U)
      ++ List.replicate (2 ^ 32 - 1) (⟨0⟩ : BFieldElement) := by
  intro d
  induction d with
  | zero =>
    intro _ U hU fuel hf
    obtain ⟨f, rfl⟩ : ∃ f, fuel = f + 1 := ⟨fuel - 1, by omega⟩
    simp only [noswapStage]
    rw [if_neg (by norm_num), show (2 : Nat) ^ 0 = 1 from rfl,
      show dblPow 0 U = U from rfl]
  | succ d ih =>
    intro hd32 U hU fuel hf
    obtain ⟨f, rfl⟩ : ∃ f, fuel = f + 1 := ⟨fuel - 1, by omega⟩
    simp only [noswapStage]
    rw [if_pos (show (2 : Nat) ^ (32 - (d + 1)) < 2 ^ 32 from
      Nat.pow_lt_pow_right (by norm_num) (by omega))]
    rw [show (2 : Nat) ^ (d + 1) / 2 = 2 ^ d from by
      rw [pow_succ]; exact Nat.mul_div_cancel _ (by norm_num)]
    rw [show (2 : Nat) ^ (32 - (d + 1)) * 2 = 2 ^ (32 - d) from by
      rw [← pow_succ]; congr 1; omega]
    have hplus : (2 : Nat) ^ (d + 1) = 2 ^ d + 2 ^ d := by rw [pow_succ]; omega
    have hle32 : (2 : Nat) ^ (d + 1) ≤ 2 ^ 32 := Nat.pow_le_pow_right (by norm_num) hd32
    rw [show (2 : Nat) ^ (d + 1) = 2 ^ d + 2 ^ d from hplus, List.replicate_add,
      List.append_assoc]
    rw [stage_fold bOps pw U (add U U) (⟨0⟩ : BFieldElement) rfl
      (by rw [hpw]; exact mul_one_exact hU) rfl (sub_self_zero U)
      zero_mul_elem (by decide) (by decide)
      (2 ^ d) (2 ^ 32 - (2 ^ d + 2 ^ d)) (2 ^ (32 - (d + 1))) (Nat.one_le_pow _ _ (by norm_num))]
    rw [show 2 ^ d + (2 ^ 32 - (2 ^ d + 2 ^ d)) = 2 ^ 32 - 2 ^ d from by omega]
    exact ih (by omega) (add U U) (add_lt hU hU) f (by omega)

/-! ### The twiddle table entry at index 0 is `ONE` -/

theorem powers_getD0 (om : BFieldElement) (w : Nat) :
    ∀ (k s : Nat), 1 ≤ s → s + k ≤ 2 ^ w →
    ∀ (st : List BFieldElement × BFieldElement), st.1.getD 0 BZERO = BONE →
    (((List.range' s k).foldl
      (fun s' i => (s'.1.set (bitreverse_usize i w) s'.2, mul s'.2 om)) st).1).getD 0 BZERO
    = BONE := by
  intro k
  induction k with
  | zero =>
    intro s _ _ st hst
    rw [List.range'_zero, List.foldl_nil]
    exact hst
  | succ k ih =>
    intro s hs hks st hst
    rw [List.range'_succ s k 1, List.foldl_cons]
    refine ih (s + 1) (by omega) (by omega) _ ?_
    show ((st.1.set (bitreverse_usize s w) st.2).getD 0 BZERO) = BONE
    rw [getD_zero_set_ne _ _ _ _ (bitrev_usize_ne_zero hs (by omega))]
    exact hst

theorem powersTable_getD0 (om : BFieldElement) (n logn : Nat) (h2 : 2 ≤ n)
    (hbound : n / 2 ≤ 2 ^ (logn - 1)) :
    (powersTable om n logn).getD 0 BZERO = BONE := by
  unfold powersTable
  obtain ⟨k, hk⟩ : ∃ k, n / 2 = k + 1 := ⟨n / 2 - 1, by omega⟩
  rw [hk, List.range_eq_range', List.range'_succ 0 k 1, List.foldl_cons]
  refine powers_getD0 om (logn - 1) k (0 + 1) (by omega) (by omega) _ ?_
  show (((List.replicate n BZERO).set (bitreverse_usize 0 (logn - 1)) BONE).getD 0 BZERO) = BONE
  rw [show bitreverse_usize 0 (logn - 1) = 0 from brGoU_zero _]
  obtain ⟨n', rfl⟩ : ∃ n', n = n' + 1 := ⟨n - 1, by omega⟩
  rw [List.replicate_succ, List.set_cons_zero, List.getD_cons_zero]

/-! ### `ntt_noswap` at length `2^32` -/

theorem ntt_noswap_unfold (x : List BFieldElement) (hlen : x.length = 2 ^ 32) :
    ntt_noswap bOps x
    = .ok (noswapStage bOps
        (powersTable (new_element 1753635133440165772) (2 ^ 32) 32)
        (2 ^ 32) (2 ^ 32 + 1) 1 (2 ^ 32) x) := by
  have hen : ensure_power_of_two (2 ^ 32) = .ok () := ensure_ok_pow 32
  have hroot : primitive_root_of_unity_impl (2 ^ 32)
      = .ok (new_element 1753635133440165772) := by decide
  simp only [ntt_noswap, hlen, Nat.log2_two_pow]
  rw [if_neg (show ¬((2 : Nat) ^ 32 = 0) from by norm_num)]
  simp only [hen, hroot]

theorem ntt_noswap_at_pow32 :
    ntt_noswap bOps (List.replicate (2 ^ 32) BONE)
    = .ok (dblPow 32 BONE :: List.replicate (2 ^ 32 - 1) (⟨0⟩ : BFieldElement)) := by
  rw [ntt_noswap_unfold _ (List.length_replicate _ _)]
  have h := noswap_stages (powersTable (new_element 1753635133440165772) (2 ^ 32) 32)
    (powersTable_getD0 _ _ _ (by norm_num) (by norm_num)) 32 (le_refl 32) BONE (by decide) (2 ^ 32 + 1) (by norm_num)
  rw [show (32 : Nat) - 32 = 0 from rfl, pow_zero,
    show (2 : Nat) ^ 32 - 2 ^ 32 = 0 from by omega,
    List.replicate_zero, List.append_nil, List.replicate_one, List.singleton_append] at h
  rw [h]

/-! ### `bitreverse_order` fixes the one-hot-plus-zeros state -/

theorem bitreverse_order_fix (C : BFieldElement) (m : Nat) :
    bitreverse_order bOps (C :: List.replicate m (⟨0⟩ : BFieldElement))
    = C :: List.replicate m (⟨0⟩ : BFieldElement) := by
  have hlen : (C :: List.replicate m (⟨0⟩ : BFieldElement)).length = m + 1 := by
    simp only [List.length_cons, List.length_replicate]
  simp only [bitreverse_order, hlen]
  rw [if_neg (Nat.succ_ne_zero m)]
  rw [List.range_eq_range', List.range'_succ 0 m 1, List.foldl_cons]
  rw [show bitreverse_usize 0 (broLogn (m + 1) (m + 1) 0) = 0 from brGoU_zero _]
  rw [if_neg (lt_irrefl 0)]
  refine foldl_fixedpt _ _ _ ?_
  intro k hk
  have hk1 : 1 ≤ k := (List.mem_range'_1.1 hk).1
  by_cases hlt : k < bitreverse_usize k (broLogn (m + 1) (m + 1) 0)
  · rw [if_pos hlt]
    obtain ⟨k', rfl⟩ : ∃ k', k = k' + 1 := ⟨k - 1, by omega⟩
    obtain ⟨r', hr⟩ : ∃ r', bitreverse_usize (k' + 1) (broLogn (m + 1) (m + 1) 0) = r' + 1 :=
      ⟨bitreverse_usize (k' + 1) (broLogn (m + 1) (m + 1) 0) - 1, by omega⟩
    rw [hr]
    show ((C :: List.replicate m (⟨0⟩ : BFieldElement)).set (r' + 1)
        ((C :: List.replicate m (⟨0⟩ : BFieldElement)).getD (k' + 1) bOps.dflt)).set (k' + 1)
        ((C :: List.replicate m (⟨0⟩ : BFieldElement)).getD (r' + 1) bOps.dflt)
      = C :: List.replicate m (⟨0⟩ : BFieldElement)
    have hget : ∀ p : Nat,
        (C :: List.replicate m (⟨0⟩ : BFieldElement)).getD (p + 1) bOps.dflt
        = (⟨0⟩ : BFieldElement) := by
      intro p
      rw [List.getD_cons_succ]
      exact getD_replicate_self _ _ _
    rw [hget, hget, List.set_cons_succ, set_replicate_self, List.set_cons_succ,
      set_replicate_self]
  · rw [if_neg hlt]

/-! ### The final comparison -/

set_option maxRecDepth 16000 in
/-- Claim C8: at length `2^32` the no-swap forward transform followed by
`bitreverse_order` does not agree with the checked forward transform: the
`uint32_t` cast makes `ntt` return the all-ones input unchanged, while
`ntt_noswap` (whose length stays `size_t`) computes a genuine transform,
turning the all-ones input into `(2^32, 0, ..., 0)`, which
`bitreverse_order` then leaves in place. -/
theorem noswap_vs_ntt_check :
    ntt bOps (List.replicate (2 ^ 32) BONE) = .ok (List.replicate (2 ^ 32) BONE)
    ∧ ntt_noswap bOps (List.replicate (2 ^ 32) BONE)
        = .ok (dblPow 32 BONE :: List.replicate (2 ^ 32 - 1) (⟨0⟩ : BFieldElement))
    ∧ bitreverse_order bOps
          (dblPow 32 BONE :: List.replicate (2 ^ 32 - 1) (⟨0⟩ : BFieldElement))
        = dblPow 32 BONE :: List.replicate (2 ^ 32 - 1) (⟨0⟩ : BFieldElement)
    ∧ dblPow 32 BONE :: List.replicate (2 ^ 32 - 1) (⟨0⟩ : BFieldElement)
        ≠ List.replicate (2 ^ 32) BONE := by
  refine ⟨ntt_at_pow32 _ (List.length_replicate _ _), ntt_noswap_at_pow32,
    bitreverse_order_fix _ _, ?_⟩
  intro hc
  rw [show (2 ^ 32 : Nat) = 2 ^ 32 - 1 + 1 from by norm_num, List.replicate_succ] at hc
  injection hc with h1 _
  exact absurd h1 (by decide)



/-- At order `n = 1 = 2^0` the claimed primitivity fails: the table entry
is one, and `w ^ (n / 2) = w ^ 0 = 1`; moreover `n = 0` is not a power of
two, yet the lookup succeeds there as well instead of failing. -/
theorem primitive_root_table_counterexample :
    primitive_root_of_unity_impl 1 = .ok (new_element 1)
    ∧ value (new_element 1) ^ (1 / 2) % P = 1
    ∧ primitive_root_of_unity_impl 0 = .ok (new_element 1)
    ∧ ∀ k : Nat, (0 : Nat) ≠ 2 ^ k := by
  refine ⟨by decide, by decide, by decide, ?_⟩
  intro k
  have h := Nat.one_le_pow k 2 (by norm_num)
  omega

/-- Witness: `mod_reduce_spec` at the concrete input `2 ^ 127 + 5`. -/
theorem mod_reduce_spec_witness :
    (2 ^ 127 + 5 : Nat) < 2 ^ 128
    ∧ mod_reduce (2 ^ 127 + 5) % P = (2 ^ 127 + 5) % P
    ∧ mod_reduce (2 ^ 127 + 5) < 2 ^ 64 :=
  ⟨by norm_num, mod_reduce_spec (2 ^ 127 + 5) (by norm_num)⟩

end Tip5xx
